import Mathlib

/-
Verification development for TPO.py, a capacitated delivery-routing program
with optional hub activation.  The program is embedded shallowly:

* Python floats are modelled by `Qinf := WithTop ℚ`; the sentinel
  `float('inf')` is `⊤`.  The float operations the program performs on the
  sentinel (`inf + x = inf`, `inf < inf` is false) agree with `WithTop ℚ`.
* The `dist` list-of-lists matrix is modelled by its access function
  `Mat := Nat → Nat → Qinf`; the in-place assignment `dist[i][j] = v` is the
  pointwise update `updM` (indices are kept in range by hypotheses where the
  claims need it).
* Python dicts are modelled as association lists in insertion order; updating
  an existing key rewrites the value in place, a new key is appended.
* The out-of-range access `viaje[0]` on an empty trip raises IndexError in
  Python; the embedding returns `none` there (`acumularViajes`), and the
  whole of `calcular_mejor_camino` is `Option`-valued for that reason.
-/

abbrev Qinf := WithTop ℚ

abbrev Mat := Nat → Nat → Qinf

/-- Pointwise matrix update, modelling the Python assignment `dist[i][j] = v`. -/
def updM (M : Mat) (i j : Nat) (v : Qinf) : Mat :=
  fun a b => if a = i ∧ b = j then v else M a b

/-- Sum of matrix weights over the consecutive pairs of a node list
(the travelled length of a node sequence). -/
def caminoSum (m : Mat) : List Nat → Qinf
  | a :: b :: resto => m a b + caminoSum m (b :: resto)
  | _ => 0

/-- The all-`inf` starting matrix of `floyd_warshall` (TPO.py line 152). -/
def matrizBase : Mat := fun _ _ => ⊤

/-- Zero diagonal initialisation (TPO.py lines 153-154). -/
def conDiagonal (n : Nat) : Mat :=
  (List.range n).foldl (fun M i => updM M i i 0) matrizBase

/-- Edge loading into the direct-distance matrix (TPO.py lines 155-157):
each edge writes its weight into both directions, in iteration order. -/
def initDist (aristas : List ((Nat × Nat) × ℚ)) (n : Nat) : Mat :=
  aristas.foldl
    (fun M e => updM (updM M e.1.1 e.1.2 (e.2 : Qinf)) e.1.2 e.1.1 (e.2 : Qinf))
    (conDiagonal n)

/-- One relaxation step of Floyd-Warshall (TPO.py lines 162-163). -/
def relaxPaso (M : Mat) (k i j : Nat) : Mat :=
  if M i k + M k j < M i j then updM M i j (M i k + M k j) else M

/-- The inner `j` loop of Floyd-Warshall. -/
def barridoJ (n k i : Nat) (M : Mat) : Mat :=
  (List.range n).foldl (fun M j => relaxPaso M k i j) M

/-- The middle `i` loop of Floyd-Warshall. -/
def barridoI (n k : Nat) (M : Mat) : Mat :=
  (List.range n).foldl (fun M i => barridoJ n k i M) M

/-- `floyd_warshall` (TPO.py lines 150-164). -/
def floyd_warshall (aristas : List ((Nat × Nat) × ℚ)) (n : Nat) : Mat :=
  (List.range n).foldl (fun M k => barridoI n k M) (initDist aristas n)

/-- Insertion-order dict update for the edge dictionary `datos['aristas']`. -/
def dictPone (d : List ((Nat × Nat) × ℚ)) (k : Nat × Nat) (v : ℚ) :
    List ((Nat × Nat) × ℚ) :=
  if d.any (fun p => decide (p.1 = k)) then
    d.map (fun p => if p.1 = k then (k, v) else p)
  else d ++ [(k, v)]

/-- Edge loading of `leer_datos` (TPO.py lines 137-141): store the edge, then
mirror it to the reverse direction only when no reverse entry exists yet. -/
def cargarAristas (entrada : List ((Nat × Nat) × ℚ)) : List ((Nat × Nat) × ℚ) :=
  entrada.foldl
    (fun d e =>
      let d1 := dictPone d e.1 e.2
      if d1.any (fun p => decide (p.1 = (e.1.2, e.1.1))) then d1
      else d1 ++ [((e.1.2, e.1.1), e.2)])
    []

/-- Dict lookup in the edge dictionary. -/
def buscaArista (d : List ((Nat × Nat) × ℚ)) (k : Nat × Nat) : Option ℚ :=
  (d.find? (fun p => decide (p.1 = k))).map (fun p => p.2)

/-- The fields of `datos` that `calcular_mejor_camino` consumes
(`configuracion`, `hubs` and `paquetes`; a package is `(id, origen, destino)`
with only the destination used by the algorithm). -/
structure Datos where
  deposito : Nat
  capacidad : Nat
  hubs : List (Nat × ℚ)
  paquetes : List (Nat × Nat × Nat)

/-- One step of `paquetes_por_destino.get(destino, 0) + 1` (TPO.py line 183):
a dict update that keeps insertion order. -/
def bump (l : List (Nat × Nat)) (d : Nat) : List (Nat × Nat) :=
  if l.any (fun p => decide (p.1 = d)) then
    l.map (fun p => if p.1 = d then (p.1, p.2 + 1) else p)
  else l ++ [(d, 1)]

/-- Aggregation of packages into a per-destination demand count
(TPO.py lines 180-183), in first-seen destination order. -/
def paquetesPorDestino (pqs : List (Nat × Nat × Nat)) : List (Nat × Nat) :=
  pqs.foldl (fun acc p => bump acc p.2.2) []

/-- Lookup `paquetes_por_destino[d]` (total, with default 0; every use in the
program is at a key that is present). -/
def demanda (ppd : List (Nat × Nat)) (d : Nat) : Nat :=
  ((ppd.find? (fun p => decide (p.1 = d))).map (fun p => p.2)).getD 0

/-- The greedy capacity grouping of destinations into trips
(TPO.py lines 202-217). -/
def armarViajes (destinos : List Nat) (ppd : List (Nat × Nat)) (cap : Nat) :
    List (List Nat) :=
  let fin := destinos.foldl
    (fun (acc : List (List Nat) × List Nat × Nat) d =>
      let cant := demanda ppd d
      if acc.2.2 + cant > cap then (acc.1 ++ [acc.2.1], [d], cant)
      else (acc.1, acc.2.1 ++ [d], acc.2.2 + cant))
    ([], [], 0)
  if fin.2.1 ≠ [] then fin.1 ++ [fin.2.1] else fin.1

/-- The distance of one trip started at `partida` (TPO.py lines 229-232):
matrix entry from the start point to the first destination, plus the legs
between consecutive destinations, plus the return to the depot. -/
def distanciaViaje (m : Mat) (dep partida v0 : Nat) (resto : List Nat) : Qinf :=
  caminoSum m (partida :: v0 :: resto) + m (resto.getLastD v0) dep

/-- The start-point selection loop (TPO.py lines 224-235): strict-improvement
minimum over `[deposito] + hubs_activos`, seeded with `(deposito, inf)`. -/
def elegirPartida (m : Mat) (dep : Nat) (activos : List Nat) (v0 : Nat)
    (resto : List Nat) : Nat × Qinf :=
  (dep :: activos).foldl
    (fun mejor p =>
      let dv := distanciaViaje m dep p v0 resto
      if dv < mejor.2 then (p, dv) else mejor)
    (dep, ⊤)

/-- The trip accumulation loop (TPO.py lines 219-241), threading the total
distance and the route; an empty trip makes the Python code raise IndexError
at `viaje[0]`, modelled by `none`. -/
def acumularViajes (m : Mat) (dep : Nat) (activos : List Nat) :
    List (List Nat) → Qinf → List Nat → Option (Qinf × List Nat)
  | [], dt, rt => some (dt, rt)
  | [] :: _, _, _ => none
  | (v0 :: resto) :: vs, dt, rt =>
    let im := elegirPartida m dep activos v0 resto
    acumularViajes m dep activos vs (dt + im.2) (rt ++ im.1 :: (v0 :: resto) ++ [dep])

/-- Evaluation of one hub subset (TPO.py lines 201-241): build the trips and
accumulate distance and route starting from `[deposito]`. -/
def evaluarSubconjunto (m : Mat) (dep cap : Nat) (ppd : List (Nat × Nat))
    (activos : List Nat) : Option (Qinf × List Nat) :=
  acumularViajes m dep activos (armarViajes (ppd.map Prod.fst) ppd cap) 0 [dep]

/-- Bit-pattern selection of the hubs whose bit is set in `i`
(TPO.py lines 196-199): bit `j` of `i` decides the `j`-th hub. -/
def seleccionar {α : Type} : Nat → List α → List α
  | _, [] => []
  | i, h :: t => if i % 2 = 1 then h :: seleccionar (i / 2) t else seleccionar (i / 2) t

/-- The sequence of hub subsets the search emits (TPO.py lines 192-199):
one subset per bit pattern `i` in `range(2 ** len(hubs))`. -/
def subconjuntosEmitidos (hubs : List (Nat × ℚ)) : List (List Nat) :=
  (List.range (2 ^ hubs.length)).map (fun i => (seleccionar i hubs).map Prod.fst)

/-- The search loop over hub subsets (TPO.py lines 192-249), threading the
best state `(mejor_costo, mejor_hubs, mejor_ruta, mejor_distancia)`. -/
def buscarMejor (m : Mat) (dep cap : Nat) (ppd : List (Nat × Nat))
    (hubs : List (Nat × ℚ)) :
    List Nat → Qinf × List Nat × List Nat × Qinf →
      Option (Qinf × List Nat × List Nat × Qinf)
  | [], st => some st
  | i :: is, st =>
    let sel := seleccionar i hubs
    match evaluarSubconjunto m dep cap ppd (sel.map Prod.fst) with
    | none => none
    | some dr =>
      let ct := dr.1 + ((sel.map Prod.snd).sum : ℚ)
      if ct < st.1 then buscarMejor m dep cap ppd hubs is (ct, sel.map Prod.fst, dr.2, dr.1)
      else buscarMejor m dep cap ppd hubs is st

/-- Subtraction used for `costo_solo_hubs = mejor_costo - mejor_distancia`
(TPO.py line 251).  In every reachable final state either both operands are
finite or the state is the untouched initial `(inf, 0)` one, where Python
produces `inf - 0 = inf`; the remaining patterns are unreachable. -/
def subQ (a b : Qinf) : Qinf :=
  if a = ⊤ ∨ b = ⊤ then ⊤ else ((a.untop' 0 - b.untop' 0 : ℚ) : Qinf)

/-- The tuple returned by `calcular_mejor_camino` (TPO.py line 253). -/
structure Resultado where
  ruta : List Nat
  hubsActivos : List Nat
  costoTotal : Qinf
  distancia : Qinf
  costoSoloHubs : Qinf
deriving DecidableEq

/-- `calcular_mejor_camino` (TPO.py lines 171-253). -/
def calcular_mejor_camino (d : Datos) (m : Mat) : Option Resultado :=
  let ppd := paquetesPorDestino d.paquetes
  match buscarMejor m d.deposito d.capacidad ppd d.hubs
      (List.range (2 ^ d.hubs.length)) (⊤, [], [], 0) with
  | none => none
  | some st => some ⟨st.2.2.1, st.2.1, st.1, st.2.2.2, subQ st.1 st.2.2.2⟩

/-- A recharge point: the depot or an activated hub. -/
def esRecarga (dep : Nat) (activos : List Nat) (x : Nat) : Prop :=
  x = dep ∨ x ∈ activos

instance (dep : Nat) (activos : List Nat) (x : Nat) :
    Decidable (esRecarga dep activos x) := by
  unfold esRecarga; infer_instance

/-- Contiguous-piece membership: `s` occurs consecutively inside `l`. -/
def Infijo {α : Type} (s l : List α) : Prop := ∃ t1 t2, l = t1 ++ s ++ t2

/-- Capacity admissibility of a route: every consecutive stretch that visits
no recharge point serves at most `cap` demand units. -/
def rutaAdmisible (dep : Nat) (activos : List Nat) (cap : Nat) (dem : Nat → Nat)
    (ruta : List Nat) : Prop :=
  ∀ s : List Nat, Infijo s ruta → (∀ x ∈ s, ¬ esRecarga dep activos x) →
    (s.map dem).sum ≤ cap

/-- A walk from `i` to `j` in the graph on nodes `0, …, n-1`: a nonempty node
sequence headed by `i`, ended by `j`, with all nodes in range.  Its weight is
`caminoSum` of the direct-distance matrix. -/
def esCamino (n i j : Nat) (l : List Nat) : Prop :=
  l.head? = some i ∧ l.getLast? = some j ∧ ∀ x ∈ l, x < n

/-- Sweep invariant of one Floyd-Warshall `k`-sweep relative to the matrix at
the start of the sweep: column `k` and row `k` are untouched, entries only
decrease, and entries stay nonnegative. -/
def invBarrido (k : Nat) (M M2 : Mat) : Prop :=
  (∀ x, M2 x k = M x k) ∧ (∀ x, M2 k x = M k x) ∧
  (∀ a b, M2 a b ≤ M a b) ∧ (∀ a b, 0 ≤ M2 a b)

/-- Soundness of a matrix relative to the direct-distance matrix `M0`: every
finite entry is realized by a walk in the graph. -/
def Realiza (M0 : Mat) (n : Nat) (M : Mat) : Prop :=
  ∀ i j, i < n → j < n →
    M i j = ⊤ ∨ ∃ l, esCamino n i j l ∧ caminoSum M0 l = M i j

/-- Lower-bound invariant of Floyd-Warshall after the first `K` sweeps: every
entry is at most the weight of every walk whose intermediate nodes are
below `K`. -/
def CotaCaminos (M0 : Mat) (n K : Nat) (M : Mat) : Prop :=
  ∀ i j, i < n → j < n → ∀ l, esCamino n i j l →
    (∀ x ∈ l.tail.dropLast, x < K) → M i j ≤ caminoSum M0 l

/-- Modelled from the spec: the state of the branch-and-bound route planner of
section 4.4a, which is not part of TPO.py (the file implements only the greedy
grouping heuristic): current location, undelivered destinations, remaining
truck capacity and accumulated cost. -/
structure EstadoBB where
  loc : Nat
  pendientes : List Nat
  capRest : Nat
  costo : Qinf

/-- Modelled from the spec: the two transitions of the branch-and-bound
planner (section 4.4a): deliver to an undelivered destination within the
current capacity (one capacity unit per delivery), or move to a recharge
point distinct from the current location, refilling the capacity. -/
inductive PasoBB (m : Mat) (dep : Nat) (recargas : List Nat) (cap : Nat) :
    EstadoBB → EstadoBB → Prop
  | entregar (s : EstadoBB) (d : Nat) (hd : d ∈ s.pendientes) (hc : 0 < s.capRest) :
      PasoBB m dep recargas cap s
        ⟨d, s.pendientes.erase d, s.capRest - 1, s.costo + m s.loc d⟩
  | recargar (s : EstadoBB) (p : Nat) (hp : p ∈ recargas) (hne : p ≠ s.loc) :
      PasoBB m dep recargas cap s ⟨p, s.pendientes, cap, s.costo + m s.loc p⟩

/-- Modelled from the spec: reachability in the branch-and-bound search tree. -/
def AlcanzaBB (m : Mat) (dep : Nat) (recargas : List Nat) (cap : Nat) :
    EstadoBB → EstadoBB → Prop :=
  Relation.ReflTransGen (PasoBB m dep recargas cap)

/-- Modelled from the spec: `c` is the finalized cost of some complete plan of
the branch-and-bound planner (section 4.4a): all destinations delivered, with
the return-to-depot leg appended when the plan does not already end there. -/
def CostoBB (m : Mat) (dep : Nat) (recargas : List Nat) (cap : Nat)
    (destinos : List Nat) (c : Qinf) : Prop :=
  ∃ s : EstadoBB,
    AlcanzaBB m dep recargas cap ⟨dep, destinos, cap, 0⟩ s ∧ s.pendientes = [] ∧
      c = s.costo + (if s.loc = dep then 0 else m s.loc dep)

/-- Modelled from the spec: the result cost of the exact branch-and-bound
planner: the cost of a complete plan, minimal among all complete plans. -/
def EsResultadoBB (m : Mat) (dep : Nat) (recargas : List Nat) (cap : Nat)
    (destinos : List Nat) (c : Qinf) : Prop :=
  CostoBB m dep recargas cap destinos c ∧
    ∀ c2, CostoBB m dep recargas cap destinos c2 → c ≤ c2

/-- Shorthand for embedding a natural-number weight into `Qinf`; concrete
instances are written through it so that their arithmetic stays on `Nat`. -/
def q (n : Nat) : Qinf := ((n : ℚ) : Qinf)

/-- Concrete matrix: distance 1 between distinct nodes. -/
def mUnos : Mat := fun a b => if a = b then 0 else q 1

/-- Concrete instance for the capacity counterexample: capacity 2, one package
to node 1 and three packages to node 2, no hubs. -/
def datosCap : Datos := ⟨0, 2, [], [(1, 0, 1), (2, 0, 2), (3, 0, 2), (4, 0, 2)]⟩

/-- Concrete symmetric shortest-path matrix on nodes 0, 1, 2 with
d(0,1) = 90, d(1,2) = 10, d(0,2) = 100 (it satisfies the triangle
inequality, as a Floyd-Warshall closure does). -/
def mTri : Mat := fun a b =>
  if a = b then 0
  else if (a = 0 ∧ b = 1) ∨ (a = 1 ∧ b = 0) then q 90
  else if (a = 1 ∧ b = 2) ∨ (a = 2 ∧ b = 1) then q 10
  else if (a = 0 ∧ b = 2) ∨ (a = 2 ∧ b = 0) then q 100
  else ⊤

/-- Concrete instance with a free hub at node 1 and one package to node 2. -/
def datosTri : Datos := ⟨0, 1, [(1, 0)], [(1, 0, 2)]⟩

/-- Concrete instance for infeasibility: hub 1, one package to node 3, and
node 3 unreachable from nodes 0 and 1. -/
def datosLejos : Datos := ⟨0, 1, [(1, 2)], [(1, 0, 3)]⟩

/-- Concrete matrix where node 3 is unreachable from nodes 0 and 1. -/
def mLejos : Mat := fun a b =>
  if a = b then 0 else if a ≤ 1 ∧ b ≤ 1 then q 1 else ⊤

/-- Sixteen hubs of activation cost 1, for the enumeration counterexample. -/
def hubs16 : List (Nat × ℚ) := (List.range 16).map (fun i => (i, (1 : ℚ)))

/-- Concrete instance whose first destination demand (3) exceeds the truck
capacity (2), making the greedy grouping emit an empty trip. -/
def datosMal : Datos := ⟨0, 2, [], [(1, 0, 7), (2, 0, 7), (3, 0, 7)]⟩

/- End of the definitions; the development of their properties follows. -/

@[simp] theorem q_add (a b : Nat) : q a + q b = q (a + b) := by
  unfold q; rw [← WithTop.coe_add, Nat.cast_add]

@[simp] theorem q_lt (a b : Nat) : q a < q b ↔ a < b := by
  simp [q, WithTop.coe_lt_coe]

@[simp] theorem q_le (a b : Nat) : q a ≤ q b ↔ a ≤ b := by
  simp [q, WithTop.coe_le_coe]

@[simp] theorem q_inj (a b : Nat) : q a = q b ↔ a = b := by
  simp [q, Nat.cast_inj]

@[simp] theorem q_lt_top (a : Nat) : q a < ⊤ := WithTop.coe_lt_top _

@[simp] theorem q_ne_top (a : Nat) : q a ≠ ⊤ := WithTop.coe_ne_top

@[simp] theorem q_untop' (a : Nat) : (q a).untop' 0 = (a : ℚ) := rfl

@[simp] theorem q_cero : q 0 = 0 := by simp [q]

theorem q_nonneg (a : Nat) : 0 ≤ q a := by
  unfold q; exact_mod_cast Nat.cast_nonneg (α := ℚ) a

@[simp] theorem coeQ_q (n : Nat) : (((n : ℚ)) : Qinf) = q n := rfl

@[simp] theorem natCast_q (n : Nat) : ((n : Qinf)) = q n := rfl

@[simp] theorem ofNat_q (n : Nat) [n.AtLeastTwo] :
    (no_index (OfNat.ofNat n) : Qinf) = q (OfNat.ofNat n) := rfl

theorem caminoSum_nil (m : Mat) : caminoSum m [] = 0 := rfl

theorem caminoSum_single (m : Mat) (a : Nat) : caminoSum m [a] = 0 := rfl

theorem caminoSum_cons2 (m : Mat) (a b : Nat) (l : List Nat) :
    caminoSum m (a :: b :: l) = m a b + caminoSum m (b :: l) := rfl

/-- Splitting the leg sum of a concatenation at a shared middle node. -/
theorem caminoSum_append (m : Mat) (l1 : List Nat) (x : Nat) (l2 : List Nat) :
    caminoSum m (l1 ++ x :: l2) = caminoSum m (l1 ++ [x]) + caminoSum m (x :: l2) := by
  induction l1 with
  | nil => simp [caminoSum_nil, caminoSum_single]
  | cons a t ih =>
    cases t with
    | nil => simp [caminoSum_cons2, caminoSum_single, caminoSum_nil, add_assoc]
    | cons b t' =>
      have h1 : (a :: b :: t') ++ x :: l2 = a :: ((b :: t') ++ x :: l2) := rfl
      have h2 : (a :: b :: t') ++ [x] = a :: ((b :: t') ++ [x]) := rfl
      rw [h1, h2]
      have h3 : (b :: t') ++ x :: l2 = b :: (t' ++ x :: l2) := rfl
      have h4 : (b :: t') ++ [x] = b :: (t' ++ [x]) := rfl
      rw [h3, caminoSum_cons2, ← h3, ih, h4, caminoSum_cons2, ← h4, add_assoc]

/-- The leg sum of a nonempty-to-nonempty concatenation: the two parts plus
the connecting leg. -/
theorem caminoSum_append_bloque (m : Mat) (l1 : List Nat) (x y : Nat) (l2 : List Nat) :
    caminoSum m ((l1 ++ [x]) ++ y :: l2) =
      caminoSum m (l1 ++ [x]) + (m x y + caminoSum m (y :: l2)) := by
  have h1 : (l1 ++ [x]) ++ y :: l2 = l1 ++ x :: y :: l2 := by simp
  rw [h1, caminoSum_append m l1 x (y :: l2), caminoSum_cons2]

/-- Leg sums are nonnegative when all the entries along the list are. -/
theorem caminoSum_nonneg (m : Mat) (l : List Nat)
    (h : ∀ a b : Nat, a ∈ l → b ∈ l → 0 ≤ m a b) : 0 ≤ caminoSum m l := by
  induction l with
  | nil => exact le_refl 0
  | cons a t ih =>
    cases t with
    | nil => exact le_refl 0
    | cons b t' =>
      rw [caminoSum_cons2]
      have hab : 0 ≤ m a b := h a b (by simp) (by simp)
      have ht : 0 ≤ caminoSum m (b :: t') :=
        ih (fun x y hx hy => h x y (by simp [hx]) (by simp [hy]))
      exact add_nonneg hab ht

/-- Dropping a suffix never increases a nonnegative leg sum: the sum up to a
member bounds below the whole sum. -/
theorem caminoSum_le_of_mem (m : Mat) (a : Nat) (l : List Nat) (x : Nat)
    (hm : ∀ u v : Nat, u ∈ a :: l → v ∈ a :: l → 0 ≤ m u v)
    (hx : x ∈ l)
    (htri : ∀ u v : Nat, u ∈ a :: l → v ∈ a :: l → m u x ≤ m u v + m v x) :
    m a x ≤ caminoSum m (a :: l) := by
  induction l generalizing a with
  | nil => cases hx
  | cons b t ih =>
    rw [caminoSum_cons2]
    rcases List.mem_cons.mp hx with hxb | hxt
    · subst hxb
      have h0 : 0 ≤ caminoSum m (x :: t) :=
        caminoSum_nonneg m (x :: t)
          (fun u v hu hv => hm u v (by simp [List.mem_cons.mp hu]) (by simp [List.mem_cons.mp hv]))
      calc m a x ≤ m a x + 0 := by rw [add_zero]
        _ ≤ m a x + caminoSum m (x :: t) := by
            exact add_le_add_left h0 _
    · have hab : m a x ≤ m a b + m b x :=
        htri a b (by simp) (by simp)
      have hbx : m b x ≤ caminoSum m (b :: t) :=
        ih b
          (fun u v hu hv =>
            hm u v (List.mem_cons_of_mem a hu) (List.mem_cons_of_mem a hv))
          hxt
          (fun u v hu hv =>
            htri u v (List.mem_cons_of_mem a hu) (List.mem_cons_of_mem a hv))
      calc m a x ≤ m a b + m b x := hab
        _ ≤ m a b + caminoSum m (b :: t) := add_le_add_left hbx _

theorem infijo_sublist {α : Type} {s l : List α} (h : Infijo s l) : s.Sublist l := by
  obtain ⟨t1, t2, rfl⟩ := h
  rw [List.append_assoc]
  exact (List.sublist_append_left s t2).trans (List.sublist_append_right t1 (s ++ t2))

theorem infijo_reverso {α : Type} {s l : List α} (h : Infijo s l) :
    Infijo s.reverse l.reverse := by
  obtain ⟨t1, t2, rfl⟩ := h
  exact ⟨t2.reverse, t1.reverse, by simp⟩

/-- Where a contiguous piece of a concatenation can sit: wholly in the left
part, wholly in the right part, or astride the border, with a nonempty tail
piece of the left part. -/
theorem infijo_append_casos {α : Type} {s l1 l2 : List α} (h : Infijo s (l1 ++ l2)) :
    Infijo s l1 ∨ Infijo s l2 ∨
      ∃ s1 s2, s = s1 ++ s2 ∧ s1 ≠ [] ∧ (∃ t, l1 = t ++ s1) ∧ ∃ t, l2 = s2 ++ t := by
  obtain ⟨t1, t2, heq⟩ := h
  rcases List.append_eq_append_iff.mp heq with ⟨a', ha1, ha2⟩ | ⟨c', hc1, hc2⟩
  · rcases List.append_eq_append_iff.mp ha1 with ⟨b', hb1, hb2⟩ | ⟨d', hd1, hd2⟩
    · rcases eq_or_ne b' [] with hnil | hne
      · subst hnil
        have hs : s = a' := by simpa using hb2
        exact Or.inr (Or.inl ⟨[], t2, by simp [ha2, hs]⟩)
      · exact Or.inr (Or.inr ⟨b', a', hb2, hne, ⟨t1, hb1⟩, ⟨t2, ha2⟩⟩)
    · refine Or.inr (Or.inl ⟨d', t2, ?_⟩)
      rw [ha2, hd2, List.append_assoc]
  · exact Or.inl ⟨t1, c', by rw [hc1, List.append_assoc]⟩

/-- A contiguous piece of `a :: l` is empty, contains the head, or sits in `l`. -/
theorem infijo_cons_casos {α : Type} {s : List α} {a : α} {l : List α}
    (h : Infijo s (a :: l)) : s = [] ∨ a ∈ s ∨ Infijo s l := by
  obtain ⟨t1, t2, heq⟩ := h
  cases t1 with
  | nil =>
    cases s with
    | nil => exact Or.inl rfl
    | cons x s' =>
      have hx : a = x := by simpa using congrArg List.head? heq
      exact Or.inr (Or.inl (by simp [hx]))
  | cons b t1' =>
    have hl : l = t1' ++ s ++ t2 := by simpa using congrArg List.tail heq
    exact Or.inr (Or.inr ⟨t1', t2, hl⟩)

/-- A contiguous piece of `l ++ [a]` is empty, contains the closing element,
or sits in `l`. -/
theorem infijo_concat_casos {α : Type} {s : List α} {l : List α} {a : α}
    (h : Infijo s (l ++ [a])) : s = [] ∨ a ∈ s ∨ Infijo s l := by
  have h' : Infijo s.reverse (a :: l.reverse) := by
    have := infijo_reverso h
    simpa using this
  rcases infijo_cons_casos h' with hnil | hmem | hrev
  · exact Or.inl (by simpa using congrArg List.reverse hnil)
  · exact Or.inr (Or.inl (by simpa using hmem))
  · refine Or.inr (Or.inr ?_)
    have := infijo_reverso hrev
    simpa using this

/-- Nat demand sums are monotone along contiguous pieces. -/
theorem suma_dem_infijo (dem : Nat → Nat) {s v : List Nat} (h : Infijo s v) :
    (s.map dem).sum ≤ (v.map dem).sum :=
  List.Sublist.sum_le_sum ((infijo_sublist h).map dem) (fun _ _ => Nat.zero_le _)

/-- Appending a block `partida :: viaje ++ [dep]` to a route that ends at the
depot preserves capacity admissibility, provided the block starts at a
recharge point and the trip demand fits the capacity. -/
theorem admisible_append_bloque {dep : Nat} {activos : List Nat} {cap : Nat}
    {dem : Nat → Nat} {rt : List Nat} {par : Nat} {v : List Nat}
    (hAdm : rutaAdmisible dep activos cap dem rt)
    (hlast : rt.getLast? = some dep)
    (hpar : esRecarga dep activos par)
    (hv : (v.map dem).sum ≤ cap) :
    rutaAdmisible dep activos cap dem ((rt ++ par :: v) ++ [dep]) := by
  intro s hs hnr
  rcases infijo_concat_casos hs with hnil | hmem | hmid
  · simp [hnil]
  · exact absurd (Or.inl rfl) (hnr dep hmem)
  rcases infijo_append_casos hmid with h1 | h2 | ⟨s1, s2, hsplit, hs1ne, ⟨t, ht⟩, _⟩
  · exact hAdm s h1 hnr
  · rcases infijo_cons_casos h2 with hnil | hmem | h3
    · simp [hnil]
    · exact absurd hpar (hnr par hmem)
    · exact le_trans (suma_dem_infijo dem h3) hv
  · exfalso
    have hdep : dep ∈ s1 := by
      have h5 : rt.getLast? = s1.getLast? := by
        rw [ht, List.getLast?_append]
        cases hgl : s1.getLast? with
        | none => exact absurd (List.getLast?_eq_none_iff.mp hgl) hs1ne
        | some x => simp [hgl]
      have h6 : s1.getLast? = some dep := by rw [← h5, hlast]
      exact List.mem_of_getLast?_eq_some h6
    have : dep ∈ s := by rw [hsplit]; exact List.mem_append_left s2 hdep
    exact (hnr dep this) (Or.inl rfl)

theorem elegir_fold_spec (m : Mat) (dep : Nat) (v0 : Nat) (resto : List Nat)
    (cands : List Nat) :
    ∀ (l : List Nat) (mj : Nat × Qinf),
      mj.1 ∈ cands → mj.2 = distanciaViaje m dep mj.1 v0 resto →
      (∀ p ∈ l, p ∈ cands) →
      (l.foldl (fun mejor p =>
          let dv := distanciaViaje m dep p v0 resto
          if dv < mejor.2 then (p, dv) else mejor) mj).1 ∈ cands ∧
      (l.foldl (fun mejor p =>
          let dv := distanciaViaje m dep p v0 resto
          if dv < mejor.2 then (p, dv) else mejor) mj).2 =
        distanciaViaje m dep (l.foldl (fun mejor p =>
          let dv := distanciaViaje m dep p v0 resto
          if dv < mejor.2 then (p, dv) else mejor) mj).1 v0 resto ∧
      (l.foldl (fun mejor p =>
          let dv := distanciaViaje m dep p v0 resto
          if dv < mejor.2 then (p, dv) else mejor) mj).2 ≤ mj.2 ∧
      ∀ p ∈ l, (l.foldl (fun mejor p =>
          let dv := distanciaViaje m dep p v0 resto
          if dv < mejor.2 then (p, dv) else mejor) mj).2 ≤
        distanciaViaje m dep p v0 resto := by
  intro l
  induction l with
  | nil =>
    intro mj h1 h2 _
    exact ⟨h1, h2, le_refl _, by simp⟩
  | cons p l' ih =>
    intro mj h1 h2 hl
    by_cases hlt : distanciaViaje m dep p v0 resto < mj.2
    · have hstep : (List.foldl (fun mejor p =>
          let dv := distanciaViaje m dep p v0 resto
          if dv < mejor.2 then (p, dv) else mejor) mj (p :: l')) =
          (List.foldl (fun mejor p =>
            let dv := distanciaViaje m dep p v0 resto
            if dv < mejor.2 then (p, dv) else mejor)
            (p, distanciaViaje m dep p v0 resto) l') := by
        simp [List.foldl_cons, hlt]
      obtain ⟨c1, c2, c3, c4⟩ := ih (p, distanciaViaje m dep p v0 resto)
        (hl p (by simp)) rfl (fun x hx => hl x (by simp [hx]))
      rw [hstep]
      refine ⟨c1, c2, ?_, ?_⟩
      · exact le_trans c3 (le_of_lt hlt)
      · intro x hx
        rcases List.mem_cons.mp hx with hxp | hx'
        · subst hxp; exact c3
        · exact c4 x hx'
    · have hstep : (List.foldl (fun mejor p =>
          let dv := distanciaViaje m dep p v0 resto
          if dv < mejor.2 then (p, dv) else mejor) mj (p :: l')) =
          (List.foldl (fun mejor p =>
            let dv := distanciaViaje m dep p v0 resto
            if dv < mejor.2 then (p, dv) else mejor) mj l') := by
        simp [List.foldl_cons, hlt]
      obtain ⟨c1, c2, c3, c4⟩ := ih mj h1 h2 (fun x hx => hl x (by simp [hx]))
      rw [hstep]
      refine ⟨c1, c2, c3, ?_⟩
      intro x hx
      rcases List.mem_cons.mp hx with hxp | hx'
      · subst hxp; exact le_trans c3 (not_lt.mp hlt)
      · exact c4 x hx'

/-- Spec of the start-point selection loop: the chosen start is a candidate,
the recorded distance is exactly the trip distance from the chosen start, and
it is minimal among all candidates. -/
theorem elegir_spec (m : Mat) (dep : Nat) (activos : List Nat) (v0 : Nat)
    (resto : List Nat) :
    (elegirPartida m dep activos v0 resto).1 ∈ dep :: activos ∧
    (elegirPartida m dep activos v0 resto).2 =
      distanciaViaje m dep (elegirPartida m dep activos v0 resto).1 v0 resto ∧
    ∀ p ∈ dep :: activos, (elegirPartida m dep activos v0 resto).2 ≤
      distanciaViaje m dep p v0 resto := by
  have hpaso : (let dv := distanciaViaje m dep dep v0 resto
      if dv < ((dep, (⊤ : Qinf))).2 then (dep, dv) else (dep, (⊤ : Qinf))) =
      (dep, distanciaViaje m dep dep v0 resto) := by
    by_cases h : distanciaViaje m dep dep v0 resto < (⊤ : Qinf)
    · simp [h]
    · have ht : distanciaViaje m dep dep v0 resto = ⊤ :=
        top_le_iff.mp (not_lt.mp h)
      simp [h, ht]
  have hunfold : elegirPartida m dep activos v0 resto =
      List.foldl (fun mejor p =>
        let dv := distanciaViaje m dep p v0 resto
        if dv < mejor.2 then (p, dv) else mejor)
        (dep, distanciaViaje m dep dep v0 resto) activos := by
    rw [elegirPartida, List.foldl_cons, hpaso]
  obtain ⟨c1, c2, c3, c4⟩ := elegir_fold_spec m dep v0 resto (dep :: activos) activos
    (dep, distanciaViaje m dep dep v0 resto) (by simp) rfl
    (fun x hx => by simp [hx])
  rw [hunfold]
  refine ⟨c1, c2, ?_⟩
  intro p hp
  rcases List.mem_cons.mp hp with hpd | hpa
  · subst hpd; exact c3
  · exact c4 p hpa

theorem armar_fold_spec (ppd : List (Nat × Nat)) (cap : Nat) :
    ∀ (ds : List Nat) (vs : List (List Nat)) (va : List Nat) (carga : Nat),
      (∀ v ∈ vs, v ≠ [] ∧ (v.map (demanda ppd)).sum ≤ cap) →
      (va.map (demanda ppd)).sum = carga → carga ≤ cap →
      (va = [] → carga = 0) →
      (∀ d ∈ ds, demanda ppd d ≤ cap) →
      (∀ v ∈ (ds.foldl (fun (acc : List (List Nat) × List Nat × Nat) d =>
          let cant := demanda ppd d
          if acc.2.2 + cant > cap then (acc.1 ++ [acc.2.1], [d], cant)
          else (acc.1, acc.2.1 ++ [d], acc.2.2 + cant)) (vs, va, carga)).1,
        v ≠ [] ∧ (v.map (demanda ppd)).sum ≤ cap) ∧
      (((ds.foldl (fun (acc : List (List Nat) × List Nat × Nat) d =>
          let cant := demanda ppd d
          if acc.2.2 + cant > cap then (acc.1 ++ [acc.2.1], [d], cant)
          else (acc.1, acc.2.1 ++ [d], acc.2.2 + cant)) (vs, va, carga)).2.1.map
            (demanda ppd)).sum ≤ cap) ∧
      ((ds.foldl (fun (acc : List (List Nat) × List Nat × Nat) d =>
          let cant := demanda ppd d
          if acc.2.2 + cant > cap then (acc.1 ++ [acc.2.1], [d], cant)
          else (acc.1, acc.2.1 ++ [d], acc.2.2 + cant)) (vs, va, carga)).1.flatten ++
        (ds.foldl (fun (acc : List (List Nat) × List Nat × Nat) d =>
          let cant := demanda ppd d
          if acc.2.2 + cant > cap then (acc.1 ++ [acc.2.1], [d], cant)
          else (acc.1, acc.2.1 ++ [d], acc.2.2 + cant)) (vs, va, carga)).2.1 =
        vs.flatten ++ va ++ ds) := by
  intro ds
  induction ds with
  | nil =>
    intro vs va carga h1 h2 h3 _ _
    refine ⟨h1, ?_, by simp⟩
    simpa [h2] using h3
  | cons d ds' ih =>
    intro vs va carga h1 h2 h3 h4 h5
    have hdcap : demanda ppd d ≤ cap := h5 d (by simp)
    by_cases hover : carga + demanda ppd d > cap
    · have hva : va ≠ [] := by
        intro hnil
        rw [h4 hnil] at hover
        omega
      have hstep : (List.foldl (fun (acc : List (List Nat) × List Nat × Nat) d =>
          let cant := demanda ppd d
          if acc.2.2 + cant > cap then (acc.1 ++ [acc.2.1], [d], cant)
          else (acc.1, acc.2.1 ++ [d], acc.2.2 + cant)) (vs, va, carga) (d :: ds')) =
          (List.foldl (fun (acc : List (List Nat) × List Nat × Nat) d =>
            let cant := demanda ppd d
            if acc.2.2 + cant > cap then (acc.1 ++ [acc.2.1], [d], cant)
            else (acc.1, acc.2.1 ++ [d], acc.2.2 + cant))
            (vs ++ [va], [d], demanda ppd d) ds') := by
        simp [List.foldl_cons, hover]
      rw [hstep]
      obtain ⟨c1, c2, c3⟩ := ih (vs ++ [va]) [d] (demanda ppd d)
        (by
          intro v hv
          rcases List.mem_append.mp hv with hvv | hvl
          · exact h1 v hvv
          · have : v = va := by simpa using hvl
            exact this ▸ ⟨hva, by rw [h2]; exact h3⟩)
        (by simp) hdcap (by simp)
        (fun x hx => h5 x (by simp [hx]))
      refine ⟨c1, c2, ?_⟩
      rw [c3]; simp
    · have hstep : (List.foldl (fun (acc : List (List Nat) × List Nat × Nat) d =>
          let cant := demanda ppd d
          if acc.2.2 + cant > cap then (acc.1 ++ [acc.2.1], [d], cant)
          else (acc.1, acc.2.1 ++ [d], acc.2.2 + cant)) (vs, va, carga) (d :: ds')) =
          (List.foldl (fun (acc : List (List Nat) × List Nat × Nat) d =>
            let cant := demanda ppd d
            if acc.2.2 + cant > cap then (acc.1 ++ [acc.2.1], [d], cant)
            else (acc.1, acc.2.1 ++ [d], acc.2.2 + cant))
            (vs, va ++ [d], carga + demanda ppd d) ds') := by
        simp [List.foldl_cons, hover]
      rw [hstep]
      obtain ⟨c1, c2, c3⟩ := ih vs (va ++ [d]) (carga + demanda ppd d)
        h1 (by simp [h2]) (by omega) (by simp)
        (fun x hx => h5 x (by simp [hx]))
      refine ⟨c1, c2, ?_⟩
      rw [c3]; simp

/-- The trips built by the greedy grouping: when every destination demand fits
the capacity, every trip is nonempty, every trip demand fits the capacity,
and the trips partition the destination list in order. -/
theorem armar_spec (ppd : List (Nat × Nat)) (cap : Nat) (ds : List Nat)
    (h : ∀ d ∈ ds, demanda ppd d ≤ cap) :
    (∀ v ∈ armarViajes ds ppd cap, v ≠ [] ∧ (v.map (demanda ppd)).sum ≤ cap) ∧
    (armarViajes ds ppd cap).flatten = ds := by
  obtain ⟨c1, c2, c3⟩ := armar_fold_spec ppd cap ds [] [] 0
    (by simp) (by simp) (Nat.zero_le _) (fun _ => rfl) h
  rw [armarViajes]
  by_cases hfin : (ds.foldl (fun (acc : List (List Nat) × List Nat × Nat) d =>
      let cant := demanda ppd d
      if acc.2.2 + cant > cap then (acc.1 ++ [acc.2.1], [d], cant)
      else (acc.1, acc.2.1 ++ [d], acc.2.2 + cant)) ([], [], 0)).2.1 = []
  · simp only [hfin, ne_eq, not_true_eq_false, if_false]
    refine ⟨c1, ?_⟩
    have := c3
    rw [hfin] at this
    simpa using this
  · simp only [ne_eq, hfin, not_false_eq_true, if_true]
    constructor
    · intro v hv
      rcases List.mem_append.mp hv with hvv | hvl
      · exact c1 v hvv
      · have hv2 : v = (ds.foldl (fun (acc : List (List Nat) × List Nat × Nat) d =>
            let cant := demanda ppd d
            if acc.2.2 + cant > cap then (acc.1 ++ [acc.2.1], [d], cant)
            else (acc.1, acc.2.1 ++ [d], acc.2.2 + cant)) ([], [], 0)).2.1 := by
          simpa using hvl
        exact hv2 ▸ ⟨hfin, c2⟩
    · rw [List.flatten_append]
      simpa using c3

/-- The leg sum of a completed trip block equals the trip distance recorded by
the start-selection loop. -/
theorem caminoSum_viaje (m : Mat) (dep par v0 : Nat) (resto : List Nat) :
    caminoSum m ((par :: v0 :: resto) ++ [dep]) = distanciaViaje m dep par v0 resto := by
  induction resto generalizing par v0 with
  | nil =>
    simp [distanciaViaje, caminoSum_cons2, caminoSum_single, caminoSum_nil, add_assoc]
  | cons r resto' ih =>
    have h2 := ih v0 r
    rw [distanciaViaje] at h2 ⊢
    rw [List.getLastD_cons]
    calc caminoSum m ((par :: v0 :: r :: resto') ++ [dep])
        = m par v0 + caminoSum m ((v0 :: r :: resto') ++ [dep]) := rfl
      _ = m par v0 + (caminoSum m (v0 :: r :: resto') + m (resto'.getLastD r) dep) := by
          rw [h2]
      _ = (m par v0 + caminoSum m (v0 :: r :: resto')) + m (resto'.getLastD r) dep := by
          rw [add_assoc]
      _ = caminoSum m (par :: v0 :: r :: resto') + m (resto'.getLastD r) dep := rfl

theorem bump_val_pos (l : List (Nat × Nat)) (d : Nat)
    (h : ∀ p ∈ l, 1 ≤ p.2) : ∀ p ∈ bump l d, 1 ≤ p.2 := by
  intro p hp
  rw [bump] at hp
  split at hp
  · obtain ⟨x, hx, hfx⟩ := List.mem_map.mp hp
    by_cases hxd : x.1 = d
    · rw [if_pos hxd] at hfx
      have h1 : 1 ≤ x.2 := h x hx
      rw [← hfx]
      exact Nat.le_succ_of_le h1
    · rw [if_neg hxd] at hfx
      exact hfx ▸ h x hx
  · rcases List.mem_append.mp hp with hl | hr
    · exact h p hl
    · have hpd : p = (d, 1) := by simpa using hr
      simp [hpd]

theorem ppd_fold_val_pos (pqs : List (Nat × Nat × Nat)) :
    ∀ (acc : List (Nat × Nat)), (∀ p ∈ acc, 1 ≤ p.2) →
      ∀ p ∈ pqs.foldl (fun acc p => bump acc p.2.2) acc, 1 ≤ p.2 := by
  induction pqs with
  | nil => intro acc hacc; simpa using hacc
  | cons pk pqs' ih =>
    intro acc hacc
    rw [List.foldl_cons]
    exact ih (bump acc pk.2.2) (bump_val_pos acc pk.2.2 hacc)

/-- Every aggregated demand count is at least 1. -/
theorem ppd_val_pos (pqs : List (Nat × Nat × Nat)) :
    ∀ p ∈ paquetesPorDestino pqs, 1 ≤ p.2 :=
  ppd_fold_val_pos pqs [] (by simp)

theorem bump_claves_mono (l : List (Nat × Nat)) (d x : Nat)
    (h : x ∈ l.map Prod.fst) : x ∈ (bump l d).map Prod.fst := by
  rw [bump]
  split
  · obtain ⟨p, hp, hpx⟩ := List.mem_map.mp h
    refine List.mem_map.mpr ?_
    by_cases hpd : p.1 = d
    · exact ⟨(p.1, p.2 + 1), List.mem_map.mpr ⟨p, hp, by rw [if_pos hpd]⟩, hpx⟩
    · exact ⟨p, List.mem_map.mpr ⟨p, hp, by rw [if_neg hpd]⟩, hpx⟩
  · rw [List.map_append]
    exact List.mem_append_left _ h

theorem bump_clave_nueva (l : List (Nat × Nat)) (d : Nat) :
    d ∈ (bump l d).map Prod.fst := by
  rw [bump]
  split
  · next hc =>
    obtain ⟨p, hp, hpd⟩ := List.any_eq_true.mp hc
    have hpd' : p.1 = d := by simpa using hpd
    refine List.mem_map.mpr ?_
    exact ⟨(p.1, p.2 + 1), List.mem_map.mpr ⟨p, hp, by rw [if_pos hpd']⟩, hpd'⟩
  · simp

theorem ppd_fold_claves_mono (pqs : List (Nat × Nat × Nat)) :
    ∀ (acc : List (Nat × Nat)) (x : Nat), x ∈ acc.map Prod.fst →
      x ∈ (pqs.foldl (fun acc p => bump acc p.2.2) acc).map Prod.fst := by
  induction pqs with
  | nil => intro acc x h; simpa using h
  | cons pk pqs' ih =>
    intro acc x h
    rw [List.foldl_cons]
    exact ih (bump acc pk.2.2) x (bump_claves_mono acc pk.2.2 x h)

theorem ppd_fold_destino (pqs : List (Nat × Nat × Nat)) :
    ∀ (acc : List (Nat × Nat)) (pk : Nat × Nat × Nat), pk ∈ pqs →
      pk.2.2 ∈ (pqs.foldl (fun acc p => bump acc p.2.2) acc).map Prod.fst := by
  induction pqs with
  | nil => intro acc pk h; cases h
  | cons p0 pqs' ih =>
    intro acc pk h
    rw [List.foldl_cons]
    rcases List.mem_cons.mp h with h0 | h'
    · subst h0
      exact ppd_fold_claves_mono pqs' (bump acc pk.2.2) pk.2.2 (bump_clave_nueva acc pk.2.2)
    · exact ih (bump acc p0.2.2) pk h'

/-- Every package destination appears among the aggregated destination keys. -/
theorem destino_en_ppd (pqs : List (Nat × Nat × Nat)) (pk : Nat × Nat × Nat)
    (h : pk ∈ pqs) : pk.2.2 ∈ (paquetesPorDestino pqs).map Prod.fst := by
  rw [paquetesPorDestino]
  exact ppd_fold_destino pqs [] pk h

/-- A present destination key has demand at least 1, given positive counts. -/
theorem demanda_pos (ppd : List (Nat × Nat)) (d : Nat)
    (hval : ∀ p ∈ ppd, 1 ≤ p.2) (hd : d ∈ ppd.map Prod.fst) :
    1 ≤ demanda ppd d := by
  induction ppd with
  | nil => cases hd
  | cons p t ih =>
    by_cases hpd : p.1 = d
    · rw [demanda, List.find?_cons_of_pos _ (by simpa using hpd)]
      exact hval p (by simp)
    · have hdt : d ∈ t.map Prod.fst := by
        rcases List.mem_map.mp hd with ⟨x, hx, hxd⟩
        rcases List.mem_cons.mp hx with hxp | hxt
        · exact absurd (hxp ▸ hxd) hpd
        · exact List.mem_map.mpr ⟨x, hxt, hxd⟩
      rw [demanda, List.find?_cons_of_neg _ (by simpa using hpd)]
      exact ih (fun x hx => hval x (by simp [hx])) hdt

/-- Distribution of a list sum over pointwise addition in `Qinf`. -/
theorem suma_map_add (f g : Nat × Qinf → Qinf) (l : List (Nat × Qinf)) :
    (l.map (fun x => f x + g x)).sum = (l.map f).sum + (l.map g).sum := by
  induction l with
  | nil => simp
  | cons x t ih =>
    simp only [List.map_cons, List.sum_cons, ih]
    rw [add_add_add_comm]

/-- Main specification of the trip accumulation loop: it preserves the route
head, keeps the depot at the end, preserves capacity admissibility, and the
route leg sum exceeds the accumulated distance exactly by the depot-to-start
legs of the trips. -/
theorem acumular_spec (m : Mat) (dep : Nat) (activos : List Nat) (cap : Nat)
    (dem : Nat → Nat) :
    ∀ (vs : List (List Nat)) (dt : Qinf) (rt : List Nat) (dtf : Qinf) (rtf : List Nat),
      acumularViajes m dep activos vs dt rt = some (dtf, rtf) →
      rt ≠ [] → rt.getLast? = some dep →
      (∀ v ∈ vs, (v.map dem).sum ≤ cap) →
      rtf.head? = rt.head? ∧ rtf.getLast? = some dep ∧
      (rutaAdmisible dep activos cap dem rt → rutaAdmisible dep activos cap dem rtf) ∧
      ∃ pares : List (Nat × Qinf),
        (∀ x ∈ pares, esRecarga dep activos x.1) ∧
        caminoSum m rtf = caminoSum m rt + (pares.map (fun x => m dep x.1 + x.2)).sum ∧
        dtf = dt + (pares.map Prod.snd).sum := by
  intro vs
  induction vs with
  | nil =>
    intro dt rt dtf rtf heq hne hlast _
    rw [acumularViajes] at heq
    obtain ⟨h1, h2⟩ := Prod.mk.injEq _ _ _ _ ▸ (Option.some.injEq _ _ ▸ heq)
    subst h1; subst h2
    exact ⟨rfl, hlast, fun h => h, [], by simp, by simp, by simp⟩
  | cons v vs' ih =>
    intro dt rt dtf rtf heq hne hlast hv
    cases v with
    | nil => rw [acumularViajes] at heq; cases heq
    | cons v0 resto =>
      rw [acumularViajes] at heq
      set par := (elegirPartida m dep activos v0 resto).1 with hpar
      set men := (elegirPartida m dep activos v0 resto).2 with hmen
      obtain ⟨e1, e2, _⟩ := elegir_spec m dep activos v0 resto
      obtain ⟨rt0, hrt0⟩ := List.getLast?_eq_some_iff.mp hlast
      have hlast' : ((rt ++ par :: (v0 :: resto)) ++ [dep]).getLast? = some dep :=
        List.getLast?_concat _
      obtain ⟨c1, c2, c3, pares', hp1, hp2, hp3⟩ :=
        ih (dt + men) ((rt ++ par :: (v0 :: resto)) ++ [dep]) dtf rtf heq
          (by simp) hlast' (fun x hx => hv x (by simp [hx]))
      refine ⟨?_, c2, ?_, (par, men) :: pares', ?_, ?_, ?_⟩
      · rw [c1]
        cases rt with
        | nil => exact absurd rfl hne
        | cons a t => simp
      · intro hAdm
        refine c3 (admisible_append_bloque hAdm hlast ?_ ?_)
        · rcases List.mem_cons.mp e1 with h | h
          · exact Or.inl h
          · exact Or.inr h
        · exact hv (v0 :: resto) (by simp)
      · intro x hx
        rcases List.mem_cons.mp hx with h | h
        · subst h
          rcases List.mem_cons.mp e1 with h' | h'
          · exact Or.inl h'
          · exact Or.inr h'
        · exact hp1 x h
      · have hblo : ((rt ++ par :: (v0 :: resto)) ++ [dep]) =
            (rt0 ++ [dep]) ++ par :: ((v0 :: resto) ++ [dep]) := by
          rw [hrt0]; simp
        have hsum : caminoSum m ((rt ++ par :: (v0 :: resto)) ++ [dep]) =
            caminoSum m rt + (m dep par + men) := by
          rw [hblo, caminoSum_append_bloque, ← hrt0]
          have : caminoSum m (par :: ((v0 :: resto) ++ [dep])) =
              caminoSum m ((par :: v0 :: resto) ++ [dep]) := rfl
          rw [this, caminoSum_viaje, ← e2]
        rw [hp2, hsum, List.map_cons, List.sum_cons, add_assoc]
      · rw [hp3, List.map_cons, List.sum_cons, add_assoc]

/-- Invariant preservation along the subset search loop: any property of the
best-so-far state that holds initially and is preserved by strict-improvement
updates holds of the final state. -/
theorem buscar_invariante (m : Mat) (dep cap : Nat) (ppd : List (Nat × Nat))
    (hubs : List (Nat × ℚ)) (Q : Qinf × List Nat × List Nat × Qinf → Prop) :
    ∀ (is : List Nat) (st : Qinf × List Nat × List Nat × Qinf),
      Q st →
      (∀ i ∈ is, ∀ st2, Q st2 → ∀ dt rt,
        evaluarSubconjunto m dep cap ppd ((seleccionar i hubs).map Prod.fst) =
          some (dt, rt) →
        dt + ((((seleccionar i hubs).map Prod.snd).sum : ℚ) : Qinf) < st2.1 →
        Q (dt + ((((seleccionar i hubs).map Prod.snd).sum : ℚ) : Qinf),
           (seleccionar i hubs).map Prod.fst, rt, dt)) →
      ∀ stf, buscarMejor m dep cap ppd hubs is st = some stf → Q stf := by
  intro is
  induction is with
  | nil =>
    intro st hst _ stf heq
    rw [buscarMejor] at heq
    cases heq
    exact hst
  | cons i is' ih =>
    intro st hst hstep stf heq
    rw [buscarMejor] at heq
    cases heval : evaluarSubconjunto m dep cap ppd ((seleccionar i hubs).map Prod.fst) with
    | none => rw [heval] at heq; cases heq
    | some dr =>
      obtain ⟨dt, rt⟩ := dr
      rw [heval] at heq
      simp only at heq
      by_cases hlt : dt + ((((seleccionar i hubs).map Prod.snd).sum : ℚ) : Qinf) < st.1
      · rw [if_pos hlt] at heq
        exact ih _ (hstep i (by simp) st hst dt rt heval hlt)
          (fun j hj => hstep j (by simp [hj])) stf heq
      · rw [if_neg hlt] at heq
        exact ih st hst (fun j hj => hstep j (by simp [hj])) stf heq

/-- The search loop returns a state whenever every subset evaluation returns. -/
theorem buscar_some (m : Mat) (dep cap : Nat) (ppd : List (Nat × Nat))
    (hubs : List (Nat × ℚ)) :
    ∀ (is : List Nat) (st : Qinf × List Nat × List Nat × Qinf),
      (∀ i ∈ is, ∃ y, evaluarSubconjunto m dep cap ppd
        ((seleccionar i hubs).map Prod.fst) = some y) →
      ∃ stf, buscarMejor m dep cap ppd hubs is st = some stf := by
  intro is
  induction is with
  | nil => intro st _; exact ⟨st, rfl⟩
  | cons i is' ih =>
    intro st hev
    obtain ⟨⟨dt, rt⟩, hy⟩ := hev i (by simp)
    rw [buscarMejor, hy]
    simp only
    by_cases hlt : dt + ((((seleccionar i hubs).map Prod.snd).sum : ℚ) : Qinf) < st.1
    · rw [if_pos hlt]
      exact ih _ (fun j hj => hev j (by simp [hj]))
    · rw [if_neg hlt]
      exact ih st (fun j hj => hev j (by simp [hj]))

theorem seleccionar_cero {α : Type} : ∀ (l : List α), seleccionar 0 l = [] := by
  intro l
  induction l with
  | nil => rfl
  | cons h t ih => rw [seleccionar, if_neg (by omega)]; exact ih

theorem seleccionar_sublist {α : Type} :
    ∀ (l : List α) (i : Nat), (seleccionar i l).Sublist l := by
  intro l
  induction l with
  | nil => intro i; rw [seleccionar]
  | cons h t ih =>
    intro i
    rw [seleccionar]
    by_cases hp : i % 2 = 1
    · rw [if_pos hp]; exact List.Sublist.cons₂ h (ih (i / 2))
    · rw [if_neg hp]; exact List.Sublist.cons h (ih (i / 2))

theorem seleccionar_exhaustivo {α : Type} :
    ∀ (l : List α) (s : List α), s.Sublist l →
      ∃ i, i < 2 ^ l.length ∧ seleccionar i l = s := by
  intro l
  induction l with
  | nil =>
    intro s hs
    refine ⟨0, by norm_num, ?_⟩
    rw [List.sublist_nil.mp hs, seleccionar]
  | cons h t ih =>
    intro s hs
    rcases List.sublist_cons_iff.mp hs with hst | ⟨r, hr1, hr2⟩
    · obtain ⟨i', hi1, hi2⟩ := ih s hst
      refine ⟨2 * i', by simp [List.length_cons, pow_succ]; omega, ?_⟩
      rw [seleccionar, if_neg (by omega)]
      have : 2 * i' / 2 = i' := by omega
      rw [this, hi2]
    · obtain ⟨i', hi1, hi2⟩ := ih r hr2
      refine ⟨2 * i' + 1, by simp [List.length_cons, pow_succ]; omega, ?_⟩
      rw [seleccionar, if_pos (by omega)]
      have : (2 * i' + 1) / 2 = i' := by omega
      rw [this, hi2, hr1]

theorem seleccionar_inyectivo {α : Type} :
    ∀ (l : List α), l.Nodup → ∀ i j, i < 2 ^ l.length → j < 2 ^ l.length →
      seleccionar i l = seleccionar j l → i = j := by
  intro l
  induction l with
  | nil =>
    intro _ i j hi hj _
    simp only [List.length_nil, pow_zero, Nat.lt_one_iff] at hi hj
    rw [hi, hj]
  | cons h t ih =>
    intro hnd i j hi hj heq
    have hnd' : t.Nodup := (List.nodup_cons.mp hnd).2
    have hht : h ∉ t := (List.nodup_cons.mp hnd).1
    have hi2 : i / 2 < 2 ^ t.length := by
      simp only [List.length_cons, pow_succ] at hi
      omega
    have hj2 : j / 2 < 2 ^ t.length := by
      simp only [List.length_cons, pow_succ] at hj
      omega
    rw [seleccionar, seleccionar] at heq
    by_cases hpi : i % 2 = 1
    · by_cases hpj : j % 2 = 1
      · rw [if_pos hpi, if_pos hpj] at heq
        have := ih hnd' (i / 2) (j / 2) hi2 hj2 (List.cons.injEq _ _ _ _ ▸ heq).2
        omega
      · rw [if_pos hpi, if_neg hpj] at heq
        exfalso
        have : h ∈ seleccionar (j / 2) t := heq ▸ List.mem_cons_self h _
        exact hht ((seleccionar_sublist t (j / 2)).mem this)
    · by_cases hpj : j % 2 = 1
      · rw [if_neg hpi, if_pos hpj] at heq
        exfalso
        have : h ∈ seleccionar (i / 2) t := heq ▸ List.mem_cons_self h _
        exact hht ((seleccionar_sublist t (i / 2)).mem this)
      · rw [if_neg hpi, if_neg hpj] at heq
        have := ih hnd' (i / 2) (j / 2) hi2 hj2 heq
        omega

theorem seleccionar_map {α β : Type} (f : α → β) :
    ∀ (l : List α) (i : Nat), (seleccionar i l).map f = seleccionar i (l.map f) := by
  intro l
  induction l with
  | nil => intro i; rfl
  | cons h t ih =>
    intro i
    rw [seleccionar, List.map_cons, seleccionar]
    by_cases hp : i % 2 = 1
    · rw [if_pos hp, if_pos hp, List.map_cons, ih]
    · rw [if_neg hp, if_neg hp, ih]

theorem demanda_le (ppd : List (Nat × Nat)) (cap : Nat)
    (hval : ∀ p ∈ ppd, p.2 ≤ cap) : ∀ d, demanda ppd d ≤ cap := by
  intro d
  induction ppd with
  | nil => simp [demanda]
  | cons p t ih =>
    by_cases hpd : p.1 = d
    · rw [demanda, List.find?_cons_of_pos _ (by simpa using hpd)]
      exact hval p (by simp)
    · rw [demanda, List.find?_cons_of_neg _ (by simpa using hpd)]
      exact ih (fun x hx => hval x (by simp [hx]))

/-- The one-node route `[dep]` is capacity admissible. -/
theorem adm_inicial (dep : Nat) (activos : List Nat) (cap : Nat) (dem : Nat → Nat) :
    rutaAdmisible dep activos cap dem [dep] := by
  intro s hs hnr
  rcases infijo_cons_casos hs with hnil | hmem | h
  · simp [hnil]
  · exact absurd (Or.inl rfl) (hnr dep hmem)
  · have : s = [] := List.sublist_nil.mp (infijo_sublist h)
    simp [this]

/-- Per-subset evaluation: route endpoints, admissibility and the leg-sum
decomposition, under fitting demands. -/
theorem evaluar_spec (m : Mat) (dep cap : Nat) (ppd : List (Nat × Nat))
    (activos : List Nat) (dt : Qinf) (rt : List Nat)
    (hcap : ∀ p ∈ ppd, p.2 ≤ cap)
    (heq : evaluarSubconjunto m dep cap ppd activos = some (dt, rt)) :
    rt.head? = some dep ∧ rt.getLast? = some dep ∧
    rutaAdmisible dep activos cap (demanda ppd) rt ∧
    ∃ pares : List (Nat × Qinf),
      (∀ x ∈ pares, esRecarga dep activos x.1) ∧
      caminoSum m rt = (pares.map (fun x => m dep x.1 + x.2)).sum ∧
      dt = (pares.map Prod.snd).sum := by
  rw [evaluarSubconjunto] at heq
  have hd : ∀ d ∈ ppd.map Prod.fst, demanda ppd d ≤ cap :=
    fun d _ => demanda_le ppd cap hcap d
  obtain ⟨harm, _⟩ := armar_spec ppd cap (ppd.map Prod.fst) hd
  obtain ⟨c1, c2, c3, pares, hp1, hp2, hp3⟩ :=
    acumular_spec m dep activos cap (demanda ppd)
      (armarViajes (ppd.map Prod.fst) ppd cap) 0 [dep] dt rt heq
      (by simp) (by simp) (fun v hv => (harm v hv).2)
  refine ⟨by rw [c1]; rfl, c2, c3 (adm_inicial dep activos cap (demanda ppd)), pares,
    hp1, ?_, ?_⟩
  · rw [hp2, caminoSum_single, zero_add]
  · rw [hp3, zero_add]

theorem acumular_some (m : Mat) (dep : Nat) (activos : List Nat) :
    ∀ (vs : List (List Nat)) (dt : Qinf) (rt : List Nat),
      (∀ v ∈ vs, v ≠ []) →
      ∃ y, acumularViajes m dep activos vs dt rt = some y := by
  intro vs
  induction vs with
  | nil => intro dt rt _; exact ⟨(dt, rt), rfl⟩
  | cons v vs' ih =>
    intro dt rt hv
    cases v with
    | nil => exact absurd rfl (hv [] (by simp))
    | cons v0 resto =>
      rw [acumularViajes]
      exact ih _ _ (fun x hx => hv x (by simp [hx]))

/-- If some trip has infinite distance from every candidate start point, the
accumulated total distance is the infinite sentinel. -/
theorem acumular_dt_top (m : Mat) (dep : Nat) (activos : List Nat) :
    ∀ (vs : List (List Nat)) (dt : Qinf) (rt : List Nat) (dtf : Qinf) (rtf : List Nat),
      acumularViajes m dep activos vs dt rt = some (dtf, rtf) →
      (dt = ⊤ ∨ ∃ v ∈ vs, ∃ v0 resto, v = v0 :: resto ∧
        ∀ p ∈ dep :: activos, distanciaViaje m dep p v0 resto = ⊤) →
      dtf = ⊤ := by
  intro vs
  induction vs with
  | nil =>
    intro dt rt dtf rtf heq hcase
    rw [acumularViajes] at heq
    obtain ⟨h1, _⟩ := Prod.mk.injEq _ _ _ _ ▸ (Option.some.injEq _ _ ▸ heq)
    rcases hcase with htop | ⟨v, hv, _⟩
    · rw [← h1, htop]
    · cases hv
  | cons v vs' ih =>
    intro dt rt dtf rtf heq hcase
    cases v with
    | nil => rw [acumularViajes] at heq; cases heq
    | cons v0 resto =>
      rw [acumularViajes] at heq
      rcases hcase with htop | ⟨v, hv, w0, wresto, hveq, hall⟩
      · refine ih _ _ _ _ heq (Or.inl ?_)
        rw [htop, top_add]
      · rcases List.mem_cons.mp hv with hvv | hvv'
        · have hvw : w0 :: wresto = v0 :: resto := hveq ▸ hvv
          injection hvw with h01 hr1
          subst h01
          subst hr1
          obtain ⟨e1, e2, _⟩ := elegir_spec m dep activos w0 wresto
          have hmen : (elegirPartida m dep activos w0 wresto).2 = ⊤ := by
            rw [e2]; exact hall _ e1
          refine ih _ _ _ _ heq (Or.inl ?_)
          rw [hmen, add_top]
        · exact ih _ _ _ _ heq
            (Or.inr ⟨v, hvv', w0, wresto, hveq, hall⟩)

/-- Concrete run: the capacity-2 instance with demands 1 and 3. -/
theorem evalCap : calcular_mejor_camino datosCap mUnos =
    some ⟨[0, 0, 1, 0, 0, 2, 0], [], q 4, q 4, 0⟩ := by
  simp [calcular_mejor_camino, buscarMejor, evaluarSubconjunto, acumularViajes,
    armarViajes, paquetesPorDestino, bump, demanda, elegirPartida, distanciaViaje,
    caminoSum, seleccionar, datosCap, mUnos, subQ, List.range_succ, updM]

/-- Concrete run: the free-hub instance, where the chosen trip start is hub 1. -/
theorem evalTri : calcular_mejor_camino datosTri mTri =
    some ⟨[0, 1, 2, 0], [1], q 110, q 110, 0⟩ := by
  simp [calcular_mejor_camino, buscarMejor, evaluarSubconjunto, acumularViajes,
    armarViajes, paquetesPorDestino, bump, demanda, elegirPartida, distanciaViaje,
    caminoSum, seleccionar, datosTri, mTri, subQ, List.range_succ, updM]

/-- Concrete run: first destination demand 3 exceeds capacity 2, and the
evaluation aborts on the empty trip (Python raises IndexError). -/
theorem evalMal : calcular_mejor_camino datosMal mUnos = none := by
  simp [calcular_mejor_camino, buscarMejor, evaluarSubconjunto, acumularViajes,
    armarViajes, paquetesPorDestino, bump, demanda, elegirPartida, distanciaViaje,
    caminoSum, seleccionar, datosMal, mUnos, subQ, List.range_succ, updM]

theorem calcular_destruye (d : Datos) (m : Mat) (res : Resultado)
    (h : calcular_mejor_camino d m = some res) :
    ∃ st, buscarMejor m d.deposito d.capacidad (paquetesPorDestino d.paquetes)
        d.hubs (List.range (2 ^ d.hubs.length)) (⊤, [], [], 0) = some st ∧
      res = ⟨st.2.2.1, st.2.1, st.1, st.2.2.2, subQ st.1 st.2.2.2⟩ := by
  simp only [calcular_mejor_camino] at h
  cases hbm : buscarMejor m d.deposito d.capacidad (paquetesPorDestino d.paquetes)
      d.hubs (List.range (2 ^ d.hubs.length)) (⊤, [], [], 0) with
  | none => rw [hbm] at h; cases h
  | some st =>
    rw [hbm] at h
    simp only [Option.some.injEq] at h
    exact ⟨st, rfl, h.symm⟩

/-- C2 counterexample: with truck capacity 2 and a destination whose
aggregated demand is 3, the produced route serves 3 units between two
consecutive recharge visits, so it is not capacity admissible. -/
theorem c2_contra :
    0 < datosCap.capacidad ∧
    ∃ res, calcular_mejor_camino datosCap mUnos = some res ∧
      res.costoTotal ≠ ⊤ ∧
      ¬ rutaAdmisible datosCap.deposito res.hubsActivos datosCap.capacidad
        (demanda (paquetesPorDestino datosCap.paquetes)) res.ruta := by
  refine ⟨by norm_num [datosCap], ⟨[0, 0, 1, 0, 0, 2, 0], [], q 4, q 4, 0⟩,
    evalCap, by simp, ?_⟩
  intro h
  have h2 := h [2] ⟨[0, 0, 1, 0, 0], [0], by simp⟩
    (by
      intro x hx
      have hx2 : x = 2 := by simpa using hx
      subst hx2
      intro hr
      rcases hr with h' | h'
      · simp [datosCap] at h'
      · simp at h')
  have hdem : demanda (paquetesPorDestino datosCap.paquetes) 2 = 3 := by decide
  rw [List.map_cons, List.map_nil, List.sum_cons, List.sum_nil, hdem] at h2
  simp [datosCap] at h2

/-- C2 (amended): for every input with truck capacity > 0 in which every
destination's aggregated demand is at most the capacity, whenever the search
returns a finite-cost result, the returned route starts and ends at the depot
and between any two consecutive recharge-point visits the delivered demand
does not exceed the capacity.  (As stated the claim fails when one
destination's demand exceeds the capacity: the greedy grouping either crashes
or emits an over-capacity trip, see the counterexample; and with no finite
cost the returned route is the empty initial one.) -/
theorem c2_correcto (d : Datos) (m : Mat) (res : Resultado)
    (hcap0 : 0 < d.capacidad)
    (hdem : ∀ p ∈ paquetesPorDestino d.paquetes, p.2 ≤ d.capacidad)
    (hres : calcular_mejor_camino d m = some res)
    (hfin : res.costoTotal ≠ ⊤) :
    res.ruta.head? = some d.deposito ∧ res.ruta.getLast? = some d.deposito ∧
    rutaAdmisible d.deposito res.hubsActivos d.capacidad
      (demanda (paquetesPorDestino d.paquetes)) res.ruta := by
  obtain ⟨st, hbm, hresdef⟩ := calcular_destruye d m res hres
  have hQ := buscar_invariante m d.deposito d.capacidad
    (paquetesPorDestino d.paquetes) d.hubs
    (fun st : Qinf × List Nat × List Nat × Qinf =>
      st.1 = ⊤ ∧ st.2.2.1 = [] ∨
      (st.2.2.1.head? = some d.deposito ∧ st.2.2.1.getLast? = some d.deposito ∧
        rutaAdmisible d.deposito st.2.1 d.capacidad
          (demanda (paquetesPorDestino d.paquetes)) st.2.2.1))
    (List.range (2 ^ d.hubs.length)) (⊤, [], [], 0) (Or.inl ⟨rfl, rfl⟩)
    (by
      intro i _ st2 _ dt rt heval _
      obtain ⟨e1, e2, e3, _⟩ := evaluar_spec m d.deposito d.capacidad
        (paquetesPorDestino d.paquetes) _ dt rt hdem heval
      exact Or.inr ⟨e1, e2, e3⟩)
    st hbm
  rcases hQ with ⟨htop, _⟩ | ⟨h1, h2, h3⟩
  · exact absurd (by rw [hresdef]; exact htop) hfin
  · rw [hresdef]
    exact ⟨h1, h2, h3⟩

/-- C2 witness: the amended theorem applied to the free-hub instance. -/
theorem c2_correcto_witness :
    (0 < datosTri.capacidad ∧
      (∀ p ∈ paquetesPorDestino datosTri.paquetes, p.2 ≤ datosTri.capacidad) ∧
      calcular_mejor_camino datosTri mTri =
        some ⟨[0, 1, 2, 0], [1], q 110, q 110, 0⟩) ∧
    ([0, 1, 2, 0].head? = some datosTri.deposito ∧
      [0, 1, 2, 0].getLast? = some datosTri.deposito ∧
      rutaAdmisible datosTri.deposito [1] datosTri.capacidad
        (demanda (paquetesPorDestino datosTri.paquetes)) [0, 1, 2, 0]) :=
  ⟨⟨by norm_num [datosTri], by decide, evalTri⟩,
    c2_correcto datosTri mTri ⟨[0, 1, 2, 0], [1], q 110, q 110, 0⟩
      (by norm_num [datosTri]) (by decide) evalTri (by simp)⟩

/-- C3 counterexample: in the free-hub instance the chosen trip start is
hub 1, the reported route is `[0, 1, 2, 0]`, but the reported distance (110)
omits the depot-to-hub leg d(0,1) = 90 that the route contains: the route leg
sum is 200. -/
theorem c3_contra :
    ∃ res, calcular_mejor_camino datosTri mTri = some res ∧
      caminoSum mTri res.ruta ≠ res.distancia := by
  refine ⟨⟨[0, 1, 2, 0], [1], q 110, q 110, 0⟩, evalTri, ?_⟩
  have h : caminoSum mTri [0, 1, 2, 0] = q 200 := by
    simp [caminoSum_cons2, caminoSum_single, mTri]
  rw [h]
  simp

/-- C3 (amended): the reported travelled distance and the reported route are
consistent up to the depot-to-trip-start legs: the route leg sum equals the
reported distance plus the sum of the matrix entries from the depot to each
trip's chosen start point.  The claimed exact equality holds only when every
chosen start is the depot itself and `m dep dep = 0`; when a trip starts at
an activated hub, the depot-to-hub leg appears in the route but not in the
reported distance (see the counterexample). -/
theorem c3_correcto (d : Datos) (m : Mat) (res : Resultado)
    (hdem : ∀ p ∈ paquetesPorDestino d.paquetes, p.2 ≤ d.capacidad)
    (hres : calcular_mejor_camino d m = some res)
    (hfin : res.costoTotal ≠ ⊤) :
    ∃ partidas : List Nat,
      (∀ x ∈ partidas, esRecarga d.deposito res.hubsActivos x) ∧
      caminoSum m res.ruta =
        res.distancia + (partidas.map (fun p => m d.deposito p)).sum := by
  obtain ⟨st, hbm, hresdef⟩ := calcular_destruye d m res hres
  have hQ := buscar_invariante m d.deposito d.capacidad
    (paquetesPorDestino d.paquetes) d.hubs
    (fun st : Qinf × List Nat × List Nat × Qinf =>
      st.1 = ⊤ ∧ st.2.2.1 = [] ∧ st.2.2.2 = 0 ∨
      ∃ partidas : List Nat,
        (∀ x ∈ partidas, esRecarga d.deposito st.2.1 x) ∧
        caminoSum m st.2.2.1 =
          st.2.2.2 + (partidas.map (fun p => m d.deposito p)).sum)
    (List.range (2 ^ d.hubs.length)) (⊤, [], [], 0) (Or.inl ⟨rfl, rfl, rfl⟩)
    (by
      intro i _ st2 _ dt rt heval _
      obtain ⟨_, _, _, pares, hp1, hp2, hp3⟩ := evaluar_spec m d.deposito
        d.capacidad (paquetesPorDestino d.paquetes) _ dt rt hdem heval
      refine Or.inr ⟨pares.map Prod.fst, ?_, ?_⟩
      · intro x hx
        obtain ⟨y, hy, hyx⟩ := List.mem_map.mp hx
        exact hyx ▸ hp1 y hy
      · rw [hp2, hp3, suma_map_add (fun x => m d.deposito x.1) Prod.snd pares,
          List.map_map, add_comm]
        rfl)
    st hbm
  rcases hQ with ⟨htop, _, _⟩ | ⟨partidas, h1, h2⟩
  · exact absurd (by rw [hresdef]; exact htop) hfin
  · rw [hresdef]
    exact ⟨partidas, h1, h2⟩

/-- C3 witness: the amended theorem applied to the free-hub instance, where
the single trip starts at hub 1 and the route leg sum exceeds the reported
distance by the depot-to-hub leg. -/
theorem c3_correcto_witness :
    ((∀ p ∈ paquetesPorDestino datosTri.paquetes, p.2 ≤ datosTri.capacidad) ∧
      calcular_mejor_camino datosTri mTri =
        some ⟨[0, 1, 2, 0], [1], q 110, q 110, 0⟩) ∧
    ∃ partidas : List Nat,
      (∀ x ∈ partidas, esRecarga datosTri.deposito [1] x) ∧
      caminoSum mTri [0, 1, 2, 0] =
        q 110 + (partidas.map (fun p => mTri datosTri.deposito p)).sum :=
  ⟨⟨by decide, evalTri⟩,
    c3_correcto datosTri mTri ⟨[0, 1, 2, 0], [1], q 110, q 110, 0⟩
      (by decide) evalTri (by simp)⟩

/-- C10 (confirmed): when every destination's aggregated demand is at most
the truck capacity, the greedy grouping never creates an empty trip, so every
hub-subset evaluation completes (no out-of-range access at `viaje[0]` /
`viaje[-1]`); and when some destination's demand exceeds the capacity the
guard can fail: on the concrete instance `datosMal` (three packages to one
destination, capacity 2) the evaluation aborts. -/
theorem c10_seguro :
    (∀ (d : Datos) (m : Mat), 0 < d.capacidad →
      (∀ p ∈ paquetesPorDestino d.paquetes, p.2 ≤ d.capacidad) →
      (calcular_mejor_camino d m).isSome = true) ∧
    calcular_mejor_camino datosMal mUnos = none := by
  constructor
  · intro d m _ hdem
    have hd : ∀ dd ∈ (paquetesPorDestino d.paquetes).map Prod.fst,
        demanda (paquetesPorDestino d.paquetes) dd ≤ d.capacidad :=
      fun dd _ => demanda_le _ _ hdem dd
    obtain ⟨harm, _⟩ := armar_spec (paquetesPorDestino d.paquetes) d.capacidad
      ((paquetesPorDestino d.paquetes).map Prod.fst) hd
    have hev : ∀ i ∈ List.range (2 ^ d.hubs.length),
        ∃ y, evaluarSubconjunto m d.deposito d.capacidad
          (paquetesPorDestino d.paquetes)
          ((seleccionar i d.hubs).map Prod.fst) = some y := by
      intro i _
      rw [evaluarSubconjunto]
      exact acumular_some m d.deposito _ _ 0 [d.deposito]
        (fun v hv => (harm v hv).1)
    obtain ⟨stf, hstf⟩ := buscar_some m d.deposito d.capacidad
      (paquetesPorDestino d.paquetes) d.hubs
      (List.range (2 ^ d.hubs.length)) (⊤, [], [], 0) hev
    simp only [calcular_mejor_camino, hstf]
    rfl
  · exact evalMal

/-- C10 witness: the completeness half applied to the free-hub instance. -/
theorem c10_seguro_witness :
    (0 < datosTri.capacidad ∧
      (∀ p ∈ paquetesPorDestino datosTri.paquetes, p.2 ≤ datosTri.capacidad)) ∧
    (calcular_mejor_camino datosTri mTri).isSome = true :=
  ⟨⟨by norm_num [datosTri], by decide⟩,
    c10_seguro.1 datosTri mTri (by norm_num [datosTri]) (by decide)⟩

theorem eval_sin_paquetes (m : Mat) (dep cap : Nat) (activos : List Nat) :
    evaluarSubconjunto m dep cap [] activos = some (0, [dep]) := rfl

/-- C9 (confirmed): with zero packages the search returns the depot-only
route, zero distance and zero activation cost, for any hub list with
non-negative activation costs (the first-seen tie-break keeps the empty
subset, including when some hub has activation cost 0). -/
theorem c9_sin_paquetes (d : Datos) (m : Mat)
    (hpq : d.paquetes = []) (hcostos : ∀ p ∈ d.hubs, 0 ≤ p.2) :
    calcular_mejor_camino d m = some ⟨[d.deposito], [], 0, 0, 0⟩ := by
  have hppd : paquetesPorDestino d.paquetes = [] := by rw [hpq]; rfl
  have heval : ∀ activos, evaluarSubconjunto m d.deposito d.capacidad
      (paquetesPorDestino d.paquetes) activos = some (0, [d.deposito]) := by
    intro activos; rw [hppd]; exact eval_sin_paquetes m d.deposito d.capacidad activos
  obtain ⟨stf, hstf⟩ := buscar_some m d.deposito d.capacidad
    (paquetesPorDestino d.paquetes) d.hubs
    (List.range (2 ^ d.hubs.length)) (⊤, [], [], 0)
    (fun i _ => ⟨(0, [d.deposito]), heval _⟩)
  have hstf2 := hstf
  obtain ⟨k, hk⟩ : ∃ k, 2 ^ d.hubs.length = k + 1 :=
    ⟨2 ^ d.hubs.length - 1, by
      have h2 : 0 < 2 ^ d.hubs.length := Nat.pos_pow_of_pos d.hubs.length (by norm_num)
      omega⟩
  rw [hk, List.range_succ_eq_map, buscarMejor, heval] at hstf2
  simp only [seleccionar_cero, List.map_nil, List.sum_nil, WithTop.coe_zero,
    add_zero] at hstf2
  have h0top : (0 : Qinf) < ⊤ := by
    rw [← WithTop.coe_zero]
    exact WithTop.coe_lt_top 0
  rw [if_pos h0top] at hstf2
  have hact : ∀ i, (0 : ℚ) ≤ ((seleccionar i d.hubs).map Prod.snd).sum := by
    intro i
    refine List.sum_nonneg ?_
    intro x hx
    obtain ⟨y, hy, hyx⟩ := List.mem_map.mp hx
    exact hyx ▸ hcostos y ((seleccionar_sublist d.hubs i).mem hy)
  have hQ := buscar_invariante m d.deposito d.capacidad
    (paquetesPorDestino d.paquetes) d.hubs
    (fun st : Qinf × List Nat × List Nat × Qinf =>
      st = (0, [], [d.deposito], 0))
    ((List.range k).map Nat.succ) (0, [], [d.deposito], 0) rfl
    (by
      intro i _ st2 hst2 dt rt hev hlt
      rw [heval] at hev
      simp only [Option.some.injEq, Prod.mk.injEq] at hev
      exfalso
      rw [hst2, ← hev.1] at hlt
      simp only [zero_add] at hlt
      have hle : (0 : Qinf) ≤ (((seleccionar i d.hubs).map Prod.snd).sum : ℚ) := by
        rw [← WithTop.coe_zero]
        exact WithTop.coe_le_coe.mpr (hact i)
      exact absurd hlt (not_lt.mpr hle))
    stf hstf2
  rw [calcular_mejor_camino]
  simp only [hstf, hQ]
  have hsub : subQ 0 0 = 0 := by
    rw [subQ]
    simp
  rw [hsub]

/-- C9 witness: a two-hub instance, one hub with activation cost 0, and no
packages. -/
theorem c9_sin_paquetes_witness :
    ((Datos.mk 0 5 [(1, 0), (2, 3)] []).paquetes = [] ∧
      (∀ p ∈ (Datos.mk 0 5 [(1, 0), (2, 3)] []).hubs, 0 ≤ p.2)) ∧
    calcular_mejor_camino (Datos.mk 0 5 [(1, 0), (2, 3)] []) mUnos =
      some ⟨[0], [], 0, 0, 0⟩ :=
  ⟨⟨rfl, by norm_num⟩,
    c9_sin_paquetes (Datos.mk 0 5 [(1, 0), (2, 3)] []) mUnos rfl (by norm_num)⟩

/-- C5 (confirmed): when some package's destination `dstar` is unreachable —
its shortest-path entry from the depot and from every hub is the infinite
sentinel, in a nonnegative matrix satisfying the triangle inequality towards
`dstar` over the relevant nodes — and every destination demand fits the
capacity, the search returns the sentinel total cost `⊤` with the empty
route, an outcome distinguishable from a valid zero-cost solution (which has
total cost `0` and route `[deposito]`, see the zero-package theorem). -/
theorem c5_infactible (d : Datos) (m : Mat) (dstar : Nat)
    (hpkg : ∃ pk ∈ d.paquetes, pk.2.2 = dstar)
    (hsent : ∀ p ∈ d.deposito :: d.hubs.map Prod.fst, m p dstar = ⊤)
    (hnn : ∀ a ∈ d.deposito :: (d.hubs.map Prod.fst ++
        (paquetesPorDestino d.paquetes).map Prod.fst),
      ∀ b ∈ d.deposito :: (d.hubs.map Prod.fst ++
        (paquetesPorDestino d.paquetes).map Prod.fst), 0 ≤ m a b)
    (htri : ∀ a ∈ d.deposito :: (d.hubs.map Prod.fst ++
        (paquetesPorDestino d.paquetes).map Prod.fst),
      ∀ b ∈ d.deposito :: (d.hubs.map Prod.fst ++
        (paquetesPorDestino d.paquetes).map Prod.fst),
      m a dstar ≤ m a b + m b dstar)
    (hcap : ∀ p ∈ paquetesPorDestino d.paquetes, p.2 ≤ d.capacidad) :
    calcular_mejor_camino d m = some ⟨[], [], ⊤, 0, ⊤⟩ ∧ (⊤ : Qinf) ≠ 0 := by
  have hd : ∀ dd ∈ (paquetesPorDestino d.paquetes).map Prod.fst,
      demanda (paquetesPorDestino d.paquetes) dd ≤ d.capacidad :=
    fun dd _ => demanda_le _ _ hcap dd
  obtain ⟨harm, hjoin⟩ := armar_spec (paquetesPorDestino d.paquetes) d.capacidad
    ((paquetesPorDestino d.paquetes).map Prod.fst) hd
  obtain ⟨pk, hpk, hpkdst⟩ := hpkg
  have hdstar : dstar ∈ (paquetesPorDestino d.paquetes).map Prod.fst :=
    hpkdst ▸ destino_en_ppd d.paquetes pk hpk
  have hrelmem : ∀ x ∈ (paquetesPorDestino d.paquetes).map Prod.fst,
      x ∈ d.deposito :: (d.hubs.map Prod.fst ++
        (paquetesPorDestino d.paquetes).map Prod.fst) := by
    intro x hx
    exact List.mem_cons_of_mem _ (List.mem_append_right _ hx)
  -- every subset evaluation yields the sentinel distance
  have hevaltop : ∀ (activos : List Nat),
      (∀ a ∈ activos, a ∈ d.hubs.map Prod.fst) →
      ∀ dt rt, evaluarSubconjunto m d.deposito d.capacidad
        (paquetesPorDestino d.paquetes) activos = some (dt, rt) → dt = ⊤ := by
    intro activos hact dt rt heq
    rw [evaluarSubconjunto] at heq
    obtain ⟨v, hv, hdv⟩ := List.mem_flatten.mp (hjoin ▸ hdstar)
    obtain ⟨hvne, _⟩ := harm v hv
    cases v with
    | nil => exact absurd rfl hvne
    | cons v0 resto =>
      refine acumular_dt_top m d.deposito activos _ 0 [d.deposito] dt rt heq
        (Or.inr ⟨v0 :: resto, hv, v0, resto, rfl, ?_⟩)
      intro p hp
      have hprel : p ∈ d.deposito :: (d.hubs.map Prod.fst ++
          (paquetesPorDestino d.paquetes).map Prod.fst) := by
        rcases List.mem_cons.mp hp with h | h
        · exact h ▸ List.mem_cons_self _ _
        · exact List.mem_cons_of_mem _ (List.mem_append_left _ (hact p h))
      have hpsent : m p dstar = ⊤ := by
        refine hsent p ?_
        rcases List.mem_cons.mp hp with h | h
        · exact h ▸ List.mem_cons_self _ _
        · exact List.mem_cons_of_mem _ (hact p h)
      have hchan : ∀ x ∈ v0 :: resto,
          x ∈ d.deposito :: (d.hubs.map Prod.fst ++
            (paquetesPorDestino d.paquetes).map Prod.fst) := by
        intro x hx
        refine hrelmem x ?_
        rw [← hjoin]
        exact List.mem_flatten.mpr ⟨v0 :: resto, hv, hx⟩
      have hbound : m p dstar ≤ caminoSum m (p :: v0 :: resto) := by
        refine caminoSum_le_of_mem m p (v0 :: resto) dstar ?_ hdv ?_
        · intro u w hu hw
          rcases List.mem_cons.mp hu with h | h
          · exact hnn u (h ▸ hprel) w (by
              rcases List.mem_cons.mp hw with h' | h'
              · exact h' ▸ hprel
              · exact hchan w h')
          · exact hnn u (hchan u h) w (by
              rcases List.mem_cons.mp hw with h' | h'
              · exact h' ▸ hprel
              · exact hchan w h')
        · intro u w hu hw
          rcases List.mem_cons.mp hu with h | h
          · exact htri u (h ▸ hprel) w (by
              rcases List.mem_cons.mp hw with h' | h'
              · exact h' ▸ hprel
              · exact hchan w h')
          · exact htri u (hchan u h) w (by
              rcases List.mem_cons.mp hw with h' | h'
              · exact h' ▸ hprel
              · exact hchan w h')
      have hcs : caminoSum m (p :: v0 :: resto) = ⊤ :=
        top_le_iff.mp (hpsent ▸ hbound)
      rw [distanciaViaje, hcs, top_add]
  obtain ⟨stf, hstf⟩ := buscar_some m d.deposito d.capacidad
    (paquetesPorDestino d.paquetes) d.hubs
    (List.range (2 ^ d.hubs.length)) (⊤, [], [], 0)
    (fun i _ => by
      rw [evaluarSubconjunto]
      exact acumular_some m d.deposito _ _ 0 [d.deposito]
        (fun v hv => (harm v hv).1))
  have hQ := buscar_invariante m d.deposito d.capacidad
    (paquetesPorDestino d.paquetes) d.hubs
    (fun st : Qinf × List Nat × List Nat × Qinf => st = (⊤, [], [], 0))
    (List.range (2 ^ d.hubs.length)) (⊤, [], [], 0) rfl
    (by
      intro i _ st2 hst2 dt rt hev hlt
      exfalso
      have hdt : dt = ⊤ := by
        refine hevaltop ((seleccionar i d.hubs).map Prod.fst) ?_ dt rt hev
        intro a ha
        obtain ⟨y, hy, hya⟩ := List.mem_map.mp ha
        exact hya ▸ List.mem_map.mpr ⟨y, (seleccionar_sublist d.hubs i).mem hy, rfl⟩
      rw [hdt, top_add, hst2] at hlt
      exact absurd hlt (lt_irrefl ⊤))
    stf hstf
  constructor
  · rw [calcular_mejor_camino]
    simp only [hstf, hQ]
    have hsub : subQ ⊤ 0 = ⊤ := by rw [subQ]; simp
    rw [hsub]
  · simp

/-- C5 witness: the unreachable-destination instance. -/
theorem c5_infactible_witness :
    ((∃ pk ∈ datosLejos.paquetes, pk.2.2 = 3) ∧
      (∀ p ∈ datosLejos.deposito :: datosLejos.hubs.map Prod.fst, mLejos p 3 = ⊤) ∧
      (∀ p ∈ paquetesPorDestino datosLejos.paquetes, p.2 ≤ datosLejos.capacidad)) ∧
    calcular_mejor_camino datosLejos mLejos = some ⟨[], [], ⊤, 0, ⊤⟩ :=
  ⟨⟨⟨(1, 0, 3), by decide, rfl⟩,
    by intro p hp; fin_cases hp <;> simp [mLejos, datosLejos],
    by decide⟩,
    (c5_infactible datosLejos mLejos 3
      ⟨(1, 0, 3), by decide, rfl⟩
      (by intro p hp; fin_cases hp <;> simp [mLejos, datosLejos])
      (by intro a ha b hb; fin_cases ha <;> fin_cases hb <;> simp [mLejos, datosLejos, q_nonneg])
      (by intro a ha b hb; fin_cases ha <;> fin_cases hb <;> simp [mLejos, datosLejos, q_nonneg])
      (by decide)).1⟩

/-- C6 counterexample: with 16 hubs (H = 16 > 15) the program does not switch
to the 12-cheapest size-0-to-4 heuristic: the emitted sequence contains the
bit-pattern-31 subset of the first five hubs, a size-5 subset that the
claimed heuristic branch would never emit. -/
theorem c6_contra :
    15 < hubs16.length ∧
    ∃ s ∈ subconjuntosEmitidos hubs16, s.length = 5 := by
  constructor
  · simp [hubs16]
  · refine ⟨(seleccionar 31 hubs16).map Prod.fst, ?_, ?_⟩
    · refine List.mem_map.mpr ⟨31, List.mem_range.mpr ?_, rfl⟩
      have h16 : hubs16.length = 16 := by simp [hubs16]
      rw [h16]
      norm_num
    · have h31 : (seleccionar 31 hubs16).map Prod.fst = [0, 1, 2, 3, 4] := by
        simp [hubs16, List.range_succ]
        decide
      rw [h31]
      rfl

/-- C6 (amended): for every hub count, without any threshold-15 branch, the
emitted subset sequence is exactly all `2^H` bit-pattern subsets: it has
length `2^H`, is duplicate-free (for duplicate-free hub ids), every emitted
subset is a sub-selection of the hub id list, and every sub-selection of the
hub id list is emitted. -/
theorem c6_correcto (hubs : List (Nat × ℚ)) (hnd : (hubs.map Prod.fst).Nodup) :
    (subconjuntosEmitidos hubs).length = 2 ^ hubs.length ∧
    (subconjuntosEmitidos hubs).Nodup ∧
    (∀ s ∈ subconjuntosEmitidos hubs, s.Sublist (hubs.map Prod.fst)) ∧
    (∀ s, s.Sublist (hubs.map Prod.fst) → s ∈ subconjuntosEmitidos hubs) := by
  have hlen : (hubs.map Prod.fst).length = hubs.length := by simp
  refine ⟨by simp [subconjuntosEmitidos], ?_, ?_, ?_⟩
  · rw [subconjuntosEmitidos]
    refine List.Nodup.map_on ?_ (List.nodup_range _)
    intro i hi j hj heq
    rw [seleccionar_map, seleccionar_map] at heq
    exact seleccionar_inyectivo (hubs.map Prod.fst) hnd i j
      (hlen ▸ List.mem_range.mp hi) (hlen ▸ List.mem_range.mp hj) heq
  · intro s hs
    obtain ⟨i, _, hieq⟩ := List.mem_map.mp hs
    rw [← hieq, seleccionar_map]
    exact seleccionar_sublist (hubs.map Prod.fst) i
  · intro s hsub
    obtain ⟨i, hi, hieq⟩ := seleccionar_exhaustivo (hubs.map Prod.fst) s hsub
    refine List.mem_map.mpr ⟨i, List.mem_range.mpr (hlen ▸ hi), ?_⟩
    rw [seleccionar_map, hieq]

/-- C6 witness: the amended theorem applied to a two-hub list. -/
theorem c6_correcto_witness :
    ([(4, (1 : ℚ)), (7, 2)].map Prod.fst).Nodup ∧
    (subconjuntosEmitidos [(4, (1 : ℚ)), (7, 2)]).length = 2 ^ 2 ∧
    ∀ s, s.Sublist ([(4, (1 : ℚ)), (7, 2)].map Prod.fst) →
      s ∈ subconjuntosEmitidos [(4, (1 : ℚ)), (7, 2)] := by
  have h := c6_correcto [(4, (1 : ℚ)), (7, 2)] (by simp)
  exact ⟨by simp, h.1, h.2.2.2⟩

/-- C7 (confirmed): the sentinel arithmetic of the relaxation is safe: the sum
of two infinite sentinels is the sentinel again, and whenever either operand
of `dist[i][k] + dist[k][j]` is the sentinel the relaxation step leaves
`dist[i][j]` unchanged — it never writes a spurious finite value. -/
theorem c7_centinela :
    ((⊤ : Qinf) + ⊤ = ⊤) ∧
    ∀ (M : Mat) (k i j : Nat), (M i k = ⊤ ∨ M k j = ⊤) →
      relaxPaso M k i j = M := by
  refine ⟨top_add ⊤, ?_⟩
  intro M k i j hcase
  have hsum : M i k + M k j = ⊤ := by
    rcases hcase with h | h
    · rw [h, top_add]
    · rw [h, add_top]
  rw [relaxPaso, hsum, if_neg (not_top_lt)]

/-- C7 witness: the relaxation on the all-sentinel starting matrix. -/
theorem c7_centinela_witness :
    (matrizBase 0 0 = ⊤ ∨ matrizBase 0 0 = ⊤) ∧
    relaxPaso matrizBase 0 0 0 = matrizBase :=
  ⟨Or.inl rfl, c7_centinela.2 matrizBase 0 0 0 (Or.inl rfl)⟩

/-- C8 counterexample: with an edge (0,1) of weight 3 followed by an explicit
reverse edge (1,0) of weight 5, the edge dictionary keeps both weights, but
the direct-distance matrix entry [0][1] used for shortest paths is 5, not the
claimed 3: `floyd_warshall`'s loading writes each edge to both directions and
the later reverse edge overwrites the forward weight. -/
theorem c8_contra :
    buscaArista (cargarAristas [((0, 1), (3 : ℚ)), ((1, 0), 5)]) (0, 1) = some 3 ∧
    initDist (cargarAristas [((0, 1), (3 : ℚ)), ((1, 0), 5)]) 2 0 1 = ((5 : ℚ) : Qinf) ∧
    initDist (cargarAristas [((0, 1), (3 : ℚ)), ((1, 0), 5)]) 2 0 1 ≠ ((3 : ℚ) : Qinf) := by
  refine ⟨by decide, ?_, ?_⟩
  · simp [initDist, cargarAristas, dictPone, updM, conDiagonal, matrizBase,
      List.range_succ]
  · simp [initDist, cargarAristas, dictPone, updM, conDiagonal, matrizBase,
      List.range_succ]

/-- C8 (amended): the `leer_datos` edge dictionary mirrors an edge only when
no explicit reverse entry exists, so the dictionary keeps w1 at (u,v) and w2
at (v,u); but the direct-distance matrix built by `floyd_warshall` writes
every edge into both directions in iteration order, so both [u][v] and [v][u]
end up holding the later weight w2 — the explicit forward weight w1 is
overwritten in the matrix. -/
theorem c8_correcto (u v : Nat) (w1 w2 : ℚ) (n : Nat) (huv : u ≠ v) :
    buscaArista (cargarAristas [((u, v), w1), ((v, u), w2)]) (u, v) = some w1 ∧
    buscaArista (cargarAristas [((u, v), w1), ((v, u), w2)]) (v, u) = some w2 ∧
    initDist (cargarAristas [((u, v), w1), ((v, u), w2)]) n u v = (w2 : Qinf) ∧
    initDist (cargarAristas [((u, v), w1), ((v, u), w2)]) n v u = (w2 : Qinf) := by
  have hvu : v ≠ u := fun h => huv h.symm
  have hlista : cargarAristas [((u, v), w1), ((v, u), w2)] =
      [((u, v), w1), ((v, u), w2)] := by
    simp [cargarAristas, dictPone, Prod.ext_iff, huv, hvu]
  have hdiag : ∀ a b : Nat, a ≠ b → conDiagonal n a b = ⊤ := by
    intro a b hab
    rw [conDiagonal]
    induction (List.range n) using List.reverseRecOn with
    | nil => rfl
    | append_singleton l x ih =>
      rw [List.foldl_append, List.foldl_cons, List.foldl_nil]
      simp only [updM]
      rw [if_neg (by rintro ⟨h1, h2⟩; exact hab (h1.trans h2.symm))]
      exact ih
  rw [hlista]
  refine ⟨?_, ?_, ?_, ?_⟩
  · simp [buscaArista, Prod.ext_iff]
  · simp [buscaArista, Prod.ext_iff, huv, hvu]
  · simp [initDist, updM, huv, hvu]
  · simp [initDist, updM, huv, hvu]

/-- C8 witness: the amended theorem at the concrete pair 0,1 with weights
3 and 5. -/
theorem c8_correcto_witness :
    (0 ≠ 1) ∧
    buscaArista (cargarAristas [((0, 1), (3 : ℚ)), ((1, 0), 5)]) (1, 0) = some 5 ∧
    initDist (cargarAristas [((0, 1), (3 : ℚ)), ((1, 0), 5)]) 2 1 0 = ((5 : ℚ) : Qinf) :=
  ⟨by decide,
    (c8_correcto 0 1 3 5 2 (by decide)).2.1,
    (c8_correcto 0 1 3 5 2 (by decide)).2.2.2⟩

theorem updM_mismo (M : Mat) (i j : Nat) (v : Qinf) : updM M i j v i j = v := by
  simp [updM]

theorem updM_otro (M : Mat) (i j : Nat) (v : Qinf) (a b : Nat)
    (h : ¬(a = i ∧ b = j)) : updM M i j v a b = M a b := by
  simp only [updM]
  rw [if_neg h]

theorem relax_le (M : Mat) (k i j a b : Nat) : relaxPaso M k i j a b ≤ M a b := by
  rw [relaxPaso]
  split
  · next hlt =>
    by_cases hab : a = i ∧ b = j
    · obtain ⟨h1, h2⟩ := hab
      subst h1; subst h2
      rw [updM_mismo]
      exact le_of_lt hlt
    · rw [updM_otro M i j _ a b hab]
  · exact le_refl _

theorem relax_otro (M : Mat) (k i j a b : Nat) (h : ¬(a = i ∧ b = j)) :
    relaxPaso M k i j a b = M a b := by
  rw [relaxPaso]
  split
  · rw [updM_otro M i j _ a b h]
  · rfl

theorem relax_cota (M : Mat) (k i j : Nat) :
    relaxPaso M k i j i j ≤ M i k + M k j := by
  rw [relaxPaso]
  split
  · next hlt => rw [updM_mismo]
  · next hlt => exact not_lt.mp hlt

/-- One relaxation step with pivot `k` preserves the sweep invariant. -/
theorem relax_inv (M : Mat) (k : Nat) (hkk : M k k = 0) (M2 : Mat) (i j : Nat)
    (h : invBarrido k M M2) : invBarrido k M (relaxPaso M2 k i j) := by
  obtain ⟨h1, h2, h3, h4⟩ := h
  have hkk2 : M2 k k = 0 := by rw [h1 k, hkk]
  refine ⟨?_, ?_, ?_, ?_⟩
  · intro x
    by_cases hx : x = i ∧ k = j
    · obtain ⟨hxi, hkj⟩ := hx
      subst hxi; subst hkj
      rw [relaxPaso]
      have : ¬ (M2 x k + M2 k k < M2 x k) := by
        rw [hkk2, add_zero]
        exact lt_irrefl _
      rw [if_neg this]
      exact h1 x
    · rw [relax_otro M2 k i j x k hx]
      exact h1 x
  · intro x
    by_cases hx : k = i ∧ x = j
    · obtain ⟨hki, hxj⟩ := hx
      subst hki; subst hxj
      rw [relaxPaso]
      have : ¬ (M2 k k + M2 k x < M2 k x) := by
        rw [hkk2, zero_add]
        exact lt_irrefl _
      rw [if_neg this]
      exact h2 x
    · rw [relax_otro M2 k i j k x hx]
      exact h2 x
  · intro a b
    exact le_trans (relax_le M2 k i j a b) (h3 a b)
  · intro a b
    by_cases hab : a = i ∧ b = j
    · obtain ⟨ha, hb⟩ := hab
      subst ha; subst hb
      rw [relaxPaso]
      split
      · rw [updM_mismo]
        exact add_nonneg (h4 a k) (h4 k b)
      · exact h4 a b
    · rw [relax_otro M2 k i j a b hab]
      exact h4 a b

theorem barridoJ_inv (M : Mat) (k : Nat) (hkk : M k k = 0) (i : Nat) :
    ∀ (js : List Nat) (M2 : Mat), invBarrido k M M2 →
      invBarrido k M (js.foldl (fun Mx j => relaxPaso Mx k i j) M2) := by
  intro js
  induction js with
  | nil => intro M2 h; exact h
  | cons j0 js' ih =>
    intro M2 h
    rw [List.foldl_cons]
    exact ih (relaxPaso M2 k i j0) (relax_inv M k hkk M2 i j0 h)

theorem barridoI_inv (n : Nat) (M : Mat) (k : Nat) (hkk : M k k = 0) :
    ∀ (is : List Nat) (M2 : Mat), invBarrido k M M2 →
      invBarrido k M (is.foldl (fun Mx i => barridoJ n k i Mx) M2) := by
  intro is
  induction is with
  | nil => intro M2 h; exact h
  | cons i0 is' ih =>
    intro M2 h
    rw [List.foldl_cons]
    exact ih (barridoJ n k i0 M2) (barridoJ_inv M k hkk i0 (List.range n) M2 h)

theorem inv_refl (k : Nat) (M : Mat) (hnn : ∀ a b, 0 ≤ M a b) :
    invBarrido k M M :=
  ⟨fun _ => rfl, fun _ => rfl, fun _ _ => le_refl _, hnn⟩

/-- After the inner `j` loop, the `(i, j)` entry is bounded by the path
through the pivot, for every processed `j`. -/
theorem barridoJ_cobertura (M2 : Mat) (k i : Nat) (hkk : M2 k k = 0)
    (hnn : ∀ a b, 0 ≤ M2 a b) :
    ∀ (js : List Nat) (j : Nat), j ∈ js →
      (js.foldl (fun Mx j => relaxPaso Mx k i j) M2) i j ≤ M2 i k + M2 k j := by
  intro js
  induction js generalizing M2 with
  | nil => intro j hj; cases hj
  | cons j0 js' ih =>
    intro j hj
    rw [List.foldl_cons]
    have hinv1 : invBarrido k M2 (relaxPaso M2 k i j0) :=
      relax_inv M2 k hkk M2 i j0 (inv_refl k M2 hnn)
    have hkk1 : (relaxPaso M2 k i j0) k k = 0 := by
      rw [hinv1.1 k, hkk]
    have hnn1 : ∀ a b, 0 ≤ (relaxPaso M2 k i j0) a b := hinv1.2.2.2
    rcases List.mem_cons.mp hj with hj0 | hj'
    · subst hj0
      have h1 : relaxPaso M2 k i j i j ≤ M2 i k + M2 k j := relax_cota M2 k i j
      have h2 := (barridoJ_inv (relaxPaso M2 k i j) k hkk1 i js'
        (relaxPaso M2 k i j) (inv_refl k _ hnn1)).2.2.1 i j
      exact le_trans h2 h1
    · have h3 := ih (relaxPaso M2 k i j0) hkk1 hnn1 j hj'
      rw [hinv1.1 i, hinv1.2.1 j] at h3
      exact h3

/-- After the full sweep with pivot `k`, every entry is bounded by the path
through the pivot. -/
theorem barridoI_cobertura (n : Nat) (M : Mat) (k : Nat) (hkk : M k k = 0)
    (hnn : ∀ a b, 0 ≤ M a b) :
    ∀ (is : List Nat) (i : Nat), i ∈ is → ∀ j ∈ List.range n,
      (is.foldl (fun Mx i => barridoJ n k i Mx) M) i j ≤ M i k + M k j := by
  intro is
  induction is generalizing M with
  | nil => intro i hi; cases hi
  | cons i0 is' ih =>
    intro i hi j hj
    rw [List.foldl_cons]
    have hinv1 : invBarrido k M (barridoJ n k i0 M) :=
      barridoJ_inv M k hkk i0 (List.range n) M (inv_refl k M hnn)
    have hkk1 : (barridoJ n k i0 M) k k = 0 := by rw [hinv1.1 k, hkk]
    have hnn1 : ∀ a b, 0 ≤ (barridoJ n k i0 M) a b := hinv1.2.2.2
    rcases List.mem_cons.mp hi with hi0 | hi'
    · subst hi0
      have h1 : (barridoJ n k i M) i j ≤ M i k + M k j := by
        rw [barridoJ]
        exact barridoJ_cobertura M k i hkk hnn (List.range n) j hj
      have h2 := (barridoI_inv n (barridoJ n k i M) k hkk1 is'
        (barridoJ n k i M) (inv_refl k _ hnn1)).2.2.1 i j
      exact le_trans h2 h1
    · have h3 := ih (barridoJ n k i0 M) hkk1 hnn1 i hi' j hj
      rw [hinv1.1 i, hinv1.2.1 j] at h3
      exact h3

/-- One relaxation step keeps entries nonnegative and the (in-range) diagonal
zero. -/
theorem relax_P (n : Nat) (M2 : Mat) (k i j : Nat)
    (h : (∀ a b, 0 ≤ M2 a b) ∧ (∀ a, a < n → M2 a a = 0)) :
    (∀ a b, 0 ≤ relaxPaso M2 k i j a b) ∧
    (∀ a, a < n → relaxPaso M2 k i j a a = 0) := by
  obtain ⟨hnn, hdg⟩ := h
  constructor
  · intro a b
    by_cases hab : a = i ∧ b = j
    · obtain ⟨h1, h2⟩ := hab
      subst h1; subst h2
      rw [relaxPaso]
      split
      · rw [updM_mismo]
        exact add_nonneg (hnn a k) (hnn k b)
      · exact hnn a b
    · rw [relax_otro M2 k i j a b hab]
      exact hnn a b
  · intro a ha
    by_cases hab : a = i ∧ a = j
    · obtain ⟨h1, h2⟩ := hab
      rw [relaxPaso]
      have hno : ¬ (M2 i k + M2 k j < M2 i j) := by
        rw [← h1, ← h2, hdg a ha]
        exact not_lt.mpr (add_nonneg (hnn a k) (hnn k a))
      rw [if_neg hno]
      exact hdg a ha
    · rw [relax_otro M2 k i j a a hab]
      exact hdg a ha

theorem barridoJ_P (n : Nat) (k i : Nat) :
    ∀ (js : List Nat) (M2 : Mat),
      (∀ a b, 0 ≤ M2 a b) ∧ (∀ a, a < n → M2 a a = 0) →
      (∀ a b, 0 ≤ (js.foldl (fun Mx j => relaxPaso Mx k i j) M2) a b) ∧
      (∀ a, a < n → (js.foldl (fun Mx j => relaxPaso Mx k i j) M2) a a = 0) := by
  intro js
  induction js with
  | nil => intro M2 h; exact h
  | cons j0 js' ih =>
    intro M2 h
    rw [List.foldl_cons]
    exact ih (relaxPaso M2 k i j0) (relax_P n M2 k i j0 h)

theorem barridoI_P (n : Nat) (k : Nat) :
    ∀ (is : List Nat) (M2 : Mat),
      (∀ a b, 0 ≤ M2 a b) ∧ (∀ a, a < n → M2 a a = 0) →
      (∀ a b, 0 ≤ (is.foldl (fun Mx i => barridoJ n k i Mx) M2) a b) ∧
      (∀ a, a < n → (is.foldl (fun Mx i => barridoJ n k i Mx) M2) a a = 0) := by
  intro is
  induction is with
  | nil => intro M2 h; exact h
  | cons i0 is' ih =>
    intro M2 h
    rw [List.foldl_cons]
    exact ih (barridoJ n k i0 M2) (barridoJ_P n k i0 (List.range n) M2 h)

/-- One relaxation step preserves walk realization of finite entries. -/
theorem relax_realiza (M0 : Mat) (n : Nat) (M2 : Mat) (k i j : Nat)
    (hk : k < n) (hi : i < n) (hj : j < n)
    (h : Realiza M0 n M2) : Realiza M0 n (relaxPaso M2 k i j) := by
  intro a b ha hb
  by_cases hab : a = i ∧ b = j
  · obtain ⟨h1, h2⟩ := hab
    subst h1; subst h2
    rw [relaxPaso]
    split
    · next hlt =>
      rw [updM_mismo]
      have hsumne : M2 a k + M2 k b ≠ ⊤ := by
        intro htop
        rw [htop] at hlt
        exact not_top_lt hlt
      obtain ⟨hne1, hne2⟩ := WithTop.add_ne_top.mp hsumne
      rcases h a k ha hk with h1 | ⟨l1, hc1, hs1⟩
      · exact absurd h1 hne1
      rcases h k b hk hb with h2 | ⟨l2, hc2, hs2⟩
      · exact absurd h2 hne2
      right
      obtain ⟨hc2h, hc2l, hc2m⟩ := hc2
      cases l2 with
      | nil => cases hc2h
      | cons c t =>
        have hck : c = k := by
          simp only [List.head?_cons, Option.some.injEq] at hc2h
          exact hc2h
        subst hck
        obtain ⟨hc1h, hc1l, hc1m⟩ := hc1
        obtain ⟨l1', hl1'⟩ := List.getLast?_eq_some_iff.mp hc1l
        refine ⟨l1' ++ c :: t, ⟨?_, ?_, ?_⟩, ?_⟩
        · rw [List.head?_append]
          have h5 : (l1' ++ [c]).head? = some a := by rw [← hl1']; exact hc1h
          rw [List.head?_append] at h5
          exact h5
        · rw [List.getLast?_append]
          have hne : (c :: t).getLast? = some b := hc2l
          rw [hne]
          rfl
        · intro x hx
          rcases List.mem_append.mp hx with hx1 | hx2
          · exact hc1m x (by rw [hl1']; exact List.mem_append_left _ hx1)
          · exact hc2m x hx2
        · rw [caminoSum_append M0 l1' c t, ← hl1', hs1]
          rw [hs2]
    · exact h a b ha hb
  · rw [relax_otro M2 k i j a b hab]
    exact h a b ha hb

theorem barridoJ_realiza (M0 : Mat) (n : Nat) (k i : Nat) (hk : k < n) (hi : i < n) :
    ∀ (js : List Nat), (∀ j ∈ js, j < n) → ∀ (M2 : Mat), Realiza M0 n M2 →
      Realiza M0 n (js.foldl (fun Mx j => relaxPaso Mx k i j) M2) := by
  intro js
  induction js with
  | nil => intro _ M2 h; exact h
  | cons j0 js' ih =>
    intro hjs M2 h
    rw [List.foldl_cons]
    exact ih (fun x hx => hjs x (by simp [hx])) (relaxPaso M2 k i j0)
      (relax_realiza M0 n M2 k i j0 hk hi (hjs j0 (by simp)) h)

theorem barridoI_realiza (M0 : Mat) (n : Nat) (k : Nat) (hk : k < n) :
    ∀ (is : List Nat), (∀ i ∈ is, i < n) → ∀ (M2 : Mat), Realiza M0 n M2 →
      Realiza M0 n (is.foldl (fun Mx i => barridoJ n k i Mx) M2) := by
  intro is
  induction is with
  | nil => intro _ M2 h; exact h
  | cons i0 is' ih =>
    intro his M2 h
    rw [List.foldl_cons]
    refine ih (fun x hx => his x (by simp [hx])) (barridoJ n k i0 M2) ?_
    rw [barridoJ]
    exact barridoJ_realiza M0 n k i0 hk (his i0 (by simp)) (List.range n)
      (fun x hx => List.mem_range.mp hx) M2 h

/-- Every entry of any matrix is realized trivially by the one-edge walk. -/
theorem realiza_inicial (M0 : Mat) (n : Nat) : Realiza M0 n M0 := by
  intro i j hi hj
  right
  refine ⟨[i, j], ⟨rfl, rfl, ?_⟩, ?_⟩
  · intro x hx
    rcases List.mem_cons.mp hx with h | h
    · exact h ▸ hi
    · have : x = j := by simpa using h
      exact this ▸ hj
  · rw [caminoSum_cons2, caminoSum_single, add_zero]

/-- Base case of the lower-bound invariant: with a zero in-range diagonal the
start matrix bounds every walk without intermediate nodes. -/
theorem cota_cero (M0 : Mat) (n : Nat) (hdg : ∀ a, a < n → M0 a a = 0) :
    CotaCaminos M0 n 0 M0 := by
  intro i j hi hj l hcam hint
  obtain ⟨hh, hl, _⟩ := hcam
  cases l with
  | nil => cases hh
  | cons a t =>
    have ha : a = i := by simpa using hh
    subst ha
    cases t with
    | nil =>
      have hj2 : a = j := by simpa using hl
      subst hj2
      rw [caminoSum_single, hdg a hi]
    | cons b t' =>
      cases t' with
      | nil =>
        have hb : b = j := by simpa using hl
        subst hb
        rw [caminoSum_cons2, caminoSum_single, add_zero]
      | cons c t'' =>
        exfalso
        have : b ∈ (a :: b :: c :: t'').tail.dropLast := by simp
        exact absurd (hint b this) (by omega)

theorem primera_ocurrencia {α : Type} [DecidableEq α] (a : α) :
    ∀ (l : List α), a ∈ l → ∃ s t, l = s ++ a :: t ∧ a ∉ s := by
  intro l
  induction l with
  | nil => intro h; cases h
  | cons b l' ih =>
    intro h
    by_cases hba : b = a
    · exact ⟨[], l', by rw [hba]; rfl, by simp⟩
    · have ha' : a ∈ l' := by
        rcases List.mem_cons.mp h with h1 | h1
        · exact absurd h1.symm hba
        · exact h1
      obtain ⟨s, t, hst, hns⟩ := ih ha'
      exact ⟨b :: s, t, by rw [hst]; rfl, by
        intro hmem
        rcases List.mem_cons.mp hmem with h2 | h2
        · exact hba h2.symm
        · exact hns h2⟩

/-- The sweep with pivot `K` upgrades the lower-bound invariant from `K`
to `K + 1`. -/
theorem cota_paso (M0 : Mat) (n K : Nat) (M : Mat) (hK : K < n)
    (hnn : ∀ a b, 0 ≤ M a b) (hdg : ∀ a, a < n → M a a = 0)
    (hC : CotaCaminos M0 n K M) :
    CotaCaminos M0 n (K + 1) (barridoI n K M) := by
  have hinv : invBarrido K M (barridoI n K M) := by
    rw [barridoI]
    exact barridoI_inv n M K (hdg K hK) (List.range n) M (inv_refl K M hnn)
  have main : ∀ (len : Nat), ∀ i j (l : List Nat), l.length ≤ len →
      i < n → j < n → esCamino n i j l →
      (∀ x ∈ l.tail.dropLast, x < K + 1) →
      (barridoI n K M) i j ≤ caminoSum M0 l := by
    intro len
    induction len with
    | zero =>
      intro i j l hlen hi hj hcam _
      obtain ⟨hh, _, _⟩ := hcam
      cases l with
      | nil => cases hh
      | cons a t => simp at hlen
    | succ len' ih =>
      intro i j l hlen hi hj hcam hint
      obtain ⟨hh, hl, hm⟩ := hcam
      by_cases hKmem : K ∈ l.tail.dropLast
      · obtain ⟨t1, t2, hsplit, hKnot⟩ := primera_ocurrencia K l.tail.dropLast hKmem
        cases l with
        | nil => cases hh
        | cons a t =>
          have ha : a = i := by simpa using hh
          subst ha
          have htne : t ≠ [] := by
            intro h
            rw [h] at hsplit
            simp at hsplit
          have hjlast : t.getLast? = some j := by
            cases t with
            | nil => exact absurd rfl htne
            | cons b t' =>
              rw [← hl]
              rfl
          have htd : t.dropLast ++ [j] = t := List.dropLast_append_getLast? j hjlast
          have htail : (a :: t).tail = t := rfl
          rw [htail] at hsplit hint
          have hlform : a :: t = (a :: t1) ++ K :: (t2 ++ [j]) := by
            rw [← htd, hsplit]
            simp
          have hw1cam : esCamino n a K ((a :: t1) ++ [K]) := by
            refine ⟨?_, List.getLast?_concat _, ?_⟩
            · rfl
            · intro x hx
              rcases List.mem_append.mp hx with hx1 | hx2
              · rcases List.mem_cons.mp hx1 with h1 | h1
                · exact h1 ▸ hi
                · refine hm x ?_
                  have : x ∈ t.dropLast := by rw [hsplit]; exact List.mem_append_left _ h1
                  exact List.mem_cons_of_mem a ((List.dropLast_sublist t).mem this)
              · have : x = K := by simpa using hx2
                exact this ▸ hK
          have hw1int : ∀ x ∈ ((a :: t1) ++ [K]).tail.dropLast, x < K := by
            intro x hx
            have hx1 : x ∈ t1 := by
              have : ((a :: t1) ++ [K]).tail = t1 ++ [K] := rfl
              rw [this, List.dropLast_concat] at hx
              exact hx
            have hxK1 : x < K + 1 := by
              refine hint x ?_
              rw [hsplit]
              exact List.mem_append_left _ hx1
            have hxK : x ≠ K := fun h => hKnot (h ▸ hx1)
            omega
          have hb1 : M a K ≤ caminoSum M0 ((a :: t1) ++ [K]) :=
            hC a K hi hK _ hw1cam hw1int
          have hw2cam : esCamino n K j ((K :: t2) ++ [j]) := by
            refine ⟨?_, List.getLast?_concat _, ?_⟩
            · rfl
            · intro x hx
              rcases List.mem_append.mp hx with hx1 | hx2
              · rcases List.mem_cons.mp hx1 with h1 | h1
                · exact h1 ▸ hK
                · refine hm x ?_
                  have : x ∈ t.dropLast := by
                    rw [hsplit]
                    exact List.mem_append_right _ (List.mem_cons_of_mem K h1)
                  exact List.mem_cons_of_mem a ((List.dropLast_sublist t).mem this)
              · have : x = j := by simpa using hx2
                exact this ▸ hj
          have hw2int : ∀ x ∈ ((K :: t2) ++ [j]).tail.dropLast, x < K + 1 := by
            intro x hx
            have hx1 : x ∈ t2 := by
              have : ((K :: t2) ++ [j]).tail = t2 ++ [j] := rfl
              rw [this, List.dropLast_concat] at hx
              exact hx
            refine hint x ?_
            rw [hsplit]
            exact List.mem_append_right _ (List.mem_cons_of_mem K hx1)
          have hlen2 : ((K :: t2) ++ [j]).length ≤ len' := by
            have h1 : (a :: t).length ≤ len' + 1 := hlen
            have h2 : (a :: t).length = t1.length + (t2.length + 3) := by
              rw [hlform]
              simp only [List.length_append, List.length_cons, List.length_nil]
              omega
            simp only [List.length_append, List.length_cons, List.length_nil]
            omega
          have hb2 : (barridoI n K M) K j ≤ caminoSum M0 ((K :: t2) ++ [j]) :=
            ih K j _ hlen2 hK hj hw2cam hw2int
          have hb2' : M K j ≤ caminoSum M0 ((K :: t2) ++ [j]) := by
            rw [← hinv.2.1 j]
            exact hb2
          have hcob : (barridoI n K M) a j ≤ M a K + M K j := by
            rw [barridoI]
            exact barridoI_cobertura n M K (hdg K hK) hnn (List.range n) a
              (List.mem_range.mpr hi) j (List.mem_range.mpr hj)
          have hsum : caminoSum M0 (a :: t) =
              caminoSum M0 ((a :: t1) ++ [K]) + caminoSum M0 ((K :: t2) ++ [j]) := by
            rw [hlform]
            have : (K :: t2) ++ [j] = K :: (t2 ++ [j]) := rfl
            rw [this]
            exact caminoSum_append M0 (a :: t1) K (t2 ++ [j])
          rw [hsum]
          exact le_trans hcob (add_le_add hb1 hb2')
      · have hint' : ∀ x ∈ l.tail.dropLast, x < K := by
          intro x hx
          have h1 := hint x hx
          have h2 : x ≠ K := fun h => hKmem (h ▸ hx)
          omega
        exact le_trans (hinv.2.2.1 i j) (hC i j hi hj l ⟨hh, hl, hm⟩ hint')
  intro i j hi hj l hcam hint
  exact main l.length i j l (le_refl _) hi hj hcam hint

theorem conDiagonal_no_toca (a b : Nat) (hab : a ≠ b) :
    ∀ (l : List Nat) (M : Mat),
      (l.foldl (fun M i => updM M i i 0) M) a b = M a b := by
  intro l
  induction l with
  | nil => intro M; rfl
  | cons x l' ih =>
    intro M
    rw [List.foldl_cons, ih]
    exact updM_otro M x x 0 a b (by rintro ⟨h1, h2⟩; exact hab (h1.trans h2.symm))

theorem conDiagonal_fuera (a : Nat) :
    ∀ (l : List Nat) (M : Mat), a ∉ l →
      (l.foldl (fun M i => updM M i i 0) M) a a = M a a := by
  intro l
  induction l with
  | nil => intro M _; rfl
  | cons x l' ih =>
    intro M hmem
    rw [List.foldl_cons, ih _ (fun h => hmem (by simp [h]))]
    exact updM_otro M x x 0 a a
      (by rintro ⟨h1, _⟩; exact hmem (by simp [h1]))

theorem conDiagonal_diag (a : Nat) :
    ∀ (l : List Nat) (M : Mat), a ∈ l →
      (l.foldl (fun M i => updM M i i 0) M) a a = 0 := by
  intro l
  induction l with
  | nil => intro M h; cases h
  | cons x l' ih =>
    intro M hmem
    rw [List.foldl_cons]
    by_cases hal : a ∈ l'
    · exact ih _ hal
    · have hax : a = x := by
        rcases List.mem_cons.mp hmem with h | h
        · exact h
        · exact absurd h hal
      rw [conDiagonal_fuera a l' _ hal, hax, updM_mismo]

theorem aristas_no_tocan_diag (a : Nat) :
    ∀ (es : List ((Nat × Nat) × ℚ)) (M : Mat), (∀ e ∈ es, e.1.1 ≠ e.1.2) →
      (es.foldl (fun M e =>
        updM (updM M e.1.1 e.1.2 (e.2 : Qinf)) e.1.2 e.1.1 (e.2 : Qinf)) M) a a
        = M a a := by
  intro es
  induction es with
  | nil => intro M _; rfl
  | cons e es' ih =>
    intro M hself
    rw [List.foldl_cons, ih _ (fun x hx => hself x (by simp [hx]))]
    have huv : e.1.1 ≠ e.1.2 := hself e (by simp)
    rw [updM_otro _ _ _ _ a a (by rintro ⟨h1, h2⟩; exact huv (h2.symm.trans h1)),
      updM_otro _ _ _ _ a a (by rintro ⟨h1, h2⟩; exact huv (h1.symm.trans h2))]

/-- With no self-loop edges, the loaded direct-distance matrix has a zero
in-range diagonal. -/
theorem initDist_diag (aristas : List ((Nat × Nat) × ℚ)) (n : Nat)
    (hself : ∀ e ∈ aristas, e.1.1 ≠ e.1.2) :
    ∀ a, a < n → initDist aristas n a a = 0 := by
  intro a ha
  rw [initDist, aristas_no_tocan_diag a aristas _ hself, conDiagonal]
  exact conDiagonal_diag a (List.range n) matrizBase (List.mem_range.mpr ha)

theorem updM_nonneg (M : Mat) (i j : Nat) (v : Qinf) (hv : 0 ≤ v)
    (hM : ∀ a b, 0 ≤ M a b) : ∀ a b, 0 ≤ updM M i j v a b := by
  intro a b
  by_cases hab : a = i ∧ b = j
  · obtain ⟨h1, h2⟩ := hab
    subst h1; subst h2
    rw [updM_mismo]
    exact hv
  · rw [updM_otro M i j v a b hab]
    exact hM a b

/-- Nonnegativity is preserved by the diagonal initialisation fold. -/
theorem fold_diag_nonneg :
    ∀ (l : List Nat) (M : Mat), (∀ a b, 0 ≤ M a b) →
      ∀ a b, 0 ≤ (l.foldl (fun M i => updM M i i 0) M) a b := by
  intro l
  induction l with
  | nil => intro M h; exact h
  | cons x l' ih =>
    intro M h
    rw [List.foldl_cons]
    exact ih _ (updM_nonneg M x x 0 (le_refl 0) h)

/-- Nonnegativity is preserved by the edge loading fold, for nonnegative
weights. -/
theorem fold_aristas_nonneg :
    ∀ (es : List ((Nat × Nat) × ℚ)) (M : Mat), (∀ e ∈ es, 0 ≤ e.2) →
      (∀ a b, 0 ≤ M a b) →
      ∀ a b, 0 ≤ (es.foldl (fun M e =>
        updM (updM M e.1.1 e.1.2 (e.2 : Qinf)) e.1.2 e.1.1 (e.2 : Qinf)) M) a b := by
  intro es
  induction es with
  | nil => intro M _ h; exact h
  | cons e es' ih =>
    intro M hw h
    rw [List.foldl_cons]
    have hwe : (0 : Qinf) ≤ (e.2 : Qinf) := by
      rw [← WithTop.coe_zero]
      exact WithTop.coe_le_coe.mpr (hw e (by simp))
    exact ih _ (fun x hx => hw x (by simp [hx]))
      (updM_nonneg _ _ _ _ hwe (updM_nonneg _ _ _ _ hwe h))

/-- With nonnegative edge weights, the loaded direct-distance matrix is
nonnegative. -/
theorem initDist_nonneg (aristas : List ((Nat × Nat) × ℚ)) (n : Nat)
    (hw : ∀ e ∈ aristas, 0 ≤ e.2) :
    ∀ a b, 0 ≤ initDist aristas n a b := by
  rw [initDist, conDiagonal]
  exact fold_aristas_nonneg aristas _ hw
    (fold_diag_nonneg (List.range n) matrizBase (fun _ _ => le_top))

/-- The bundle of Floyd-Warshall invariants after the first `K` pivot
sweeps: nonnegative entries, zero in-range diagonal, walk realization of
finite entries, and the walk lower bound for intermediates below `K`. -/
theorem fw_fases (M0 : Mat) (n : Nat)
    (hnn0 : ∀ a b, 0 ≤ M0 a b) (hdg0 : ∀ a, a < n → M0 a a = 0) :
    ∀ K, K ≤ n →
      (∀ a b, 0 ≤ ((List.range K).foldl (fun M k => barridoI n k M) M0) a b) ∧
      (∀ a, a < n → ((List.range K).foldl (fun M k => barridoI n k M) M0) a a = 0) ∧
      Realiza M0 n ((List.range K).foldl (fun M k => barridoI n k M) M0) ∧
      CotaCaminos M0 n K ((List.range K).foldl (fun M k => barridoI n k M) M0) := by
  intro K
  induction K with
  | zero =>
    intro _
    exact ⟨hnn0, hdg0, realiza_inicial M0 n, cota_cero M0 n hdg0⟩
  | succ K ih =>
    intro hK1
    have hK : K < n := hK1
    obtain ⟨nn, dg, re, co⟩ := ih (le_of_lt hK)
    rw [List.range_succ, List.foldl_append, List.foldl_cons, List.foldl_nil]
    refine ⟨?_, ?_, ?_, ?_⟩
    · intro a b
      rw [barridoI]
      exact (barridoI_P n K (List.range n) _ ⟨nn, dg⟩).1 a b
    · intro a ha
      rw [barridoI]
      exact (barridoI_P n K (List.range n) _ ⟨nn, dg⟩).2 a ha
    · rw [barridoI]
      exact barridoI_realiza M0 n K hK (List.range n)
        (fun x hx => List.mem_range.mp hx) _ re
    · exact cota_paso M0 n K _ hK nn dg co

/-- C1 counterexample: a self-loop edge (0,0) of weight 5 overwrites the zero
diagonal during initialisation, and the relaxation cannot restore it, so
`dist[0][0] = 5 ≠ 0`. -/
theorem c1_contra :
    floyd_warshall [((0, 0), (5 : ℚ))] 1 0 0 = q 5 ∧ q 5 ≠ 0 := by
  have h00 : initDist [((0, 0), (5 : ℚ))] 1 0 0 = ((5 : ℚ) : Qinf) := by
    rw [initDist, List.foldl_cons, List.foldl_nil, updM_mismo]
  have hq5 : ((5 : ℚ) : Qinf) = q 5 := by
    rw [q]
    norm_num
  have hno : ¬ (initDist [((0, 0), (5 : ℚ))] 1 0 0 +
      initDist [((0, 0), (5 : ℚ))] 1 0 0 < initDist [((0, 0), (5 : ℚ))] 1 0 0) := by
    rw [h00, ← WithTop.coe_add, WithTop.coe_lt_coe]
    norm_num
  have hr1 : List.range 1 = [0] := rfl
  constructor
  · rw [floyd_warshall, hr1, List.foldl_cons, List.foldl_nil,
      barridoI, hr1, List.foldl_cons, List.foldl_nil,
      barridoJ, hr1, List.foldl_cons, List.foldl_nil,
      relaxPaso, if_neg hno, h00, hq5]
  · rw [q]
    intro h
    have h2 : ((5 : ℕ) : ℚ) = 0 := by exact_mod_cast h
    norm_num at h2

/-- C1 (amended): for every edge list with no self-loop edges and nonnegative
weights, `floyd_warshall` computes exactly the minimum walk weight over the
direct-distance matrix it builds from the edges (each edge written in both
directions, later writes overwriting earlier ones): every in-range diagonal
entry is 0, every entry bounds every walk from below, and every finite entry
is realized by some walk.  (As stated the claim fails when the edge map holds
a self-loop: the self-loop weight overwrites `dist[i][i] = 0`, see the
counterexample.) -/
theorem c1_correcto (aristas : List ((Nat × Nat) × ℚ)) (n : Nat)
    (hself : ∀ e ∈ aristas, e.1.1 ≠ e.1.2)
    (hw : ∀ e ∈ aristas, 0 ≤ e.2) :
    (∀ i, i < n → floyd_warshall aristas n i i = 0) ∧
    (∀ i j, i < n → j < n →
      (∀ l, esCamino n i j l →
        floyd_warshall aristas n i j ≤ caminoSum (initDist aristas n) l) ∧
      (floyd_warshall aristas n i j = ⊤ ∨
        ∃ l, esCamino n i j l ∧
          caminoSum (initDist aristas n) l = floyd_warshall aristas n i j)) := by
  obtain ⟨nn, dg, re, co⟩ := fw_fases (initDist aristas n) n
    (initDist_nonneg aristas n hw) (initDist_diag aristas n hself) n (le_refl n)
  rw [floyd_warshall]
  refine ⟨dg, ?_⟩
  intro i j hi hj
  constructor
  · intro l hcam
    refine co i j hi hj l hcam ?_
    intro x hx
    have hx1 : x ∈ l := by
      have h1 : l.tail.dropLast.Sublist l.tail := List.dropLast_sublist _
      have h2 : l.tail.Sublist l := List.tail_sublist l
      exact h2.mem (h1.mem hx)
    exact hcam.2.2 x hx1
  · exact re i j hi hj

/-- C1 witness: the amended theorem on a two-node graph with one edge of
weight 2. -/
theorem c1_correcto_witness :
    ((∀ e ∈ [((0, 1), (2 : ℚ))], e.1.1 ≠ e.1.2) ∧
      (∀ e ∈ [((0, 1), (2 : ℚ))], 0 ≤ e.2)) ∧
    (∀ i, i < 2 → floyd_warshall [((0, 1), (2 : ℚ))] 2 i i = 0) :=
  ⟨⟨by decide, by norm_num⟩,
    (c1_correcto [((0, 1), (2 : ℚ))] 2 (by decide) (by norm_num)).1⟩

/-- The recorded last element of a list with a default is one of the two. -/
theorem getLastD_mem (v0 : Nat) (resto : List Nat) :
    resto.getLastD v0 ∈ v0 :: resto := by
  induction resto generalizing v0 with
  | nil => simp
  | cons r t ih =>
    rw [List.getLastD_cons]
    exact List.mem_cons_of_mem v0 (ih r)

/-- A list is no longer than the sum of its per-element demands when every
demand is at least one. -/
theorem longitud_le_suma (dem : Nat → Nat) (v : List Nat)
    (h : ∀ x ∈ v, 1 ≤ dem x) : v.length ≤ (v.map dem).sum := by
  induction v with
  | nil => simp
  | cons a t ih =>
    simp only [List.length_cons, List.map_cons, List.sum_cons]
    have h1 := h a (by simp)
    have h2 := ih (fun x hx => h x (by simp [hx]))
    omega

/-- A run of consecutive deliveries along a trip: from any location, delivering
the trip's destinations in order reaches the trip's last destination, consumes
one capacity unit per delivery, and adds the trip's leg sum to the cost. -/
theorem entregas_seguidas (m : Mat) (dep : Nat) (recargas : List Nat) (cap : Nat) :
    ∀ (v : List Nat) (loc : Nat) (pend2 : List Nat) (capR : Nat) (c : Qinf),
      v.length ≤ capR →
      AlcanzaBB m dep recargas cap ⟨loc, v ++ pend2, capR, c⟩
        ⟨v.getLastD loc, pend2, capR - v.length, c + caminoSum m (loc :: v)⟩ := by
  intro v
  induction v with
  | nil =>
    intro loc pend2 capR c _
    have e : (⟨List.getLastD [] loc, pend2, capR - List.length ([] : List Nat),
          c + caminoSum m (loc :: [])⟩ : EstadoBB) =
        ⟨loc, [] ++ pend2, capR, c⟩ := by
      simp [caminoSum_single]
    rw [e]
    exact Relation.ReflTransGen.refl
  | cons d v' ih =>
    intro loc pend2 capR c hlen
    simp only [List.length_cons] at hlen
    have hcap : 0 < capR := by omega
    have hstep : PasoBB m dep recargas cap ⟨loc, (d :: v') ++ pend2, capR, c⟩
        ⟨d, ((d :: v') ++ pend2).erase d, capR - 1, c + m loc d⟩ :=
      PasoBB.entregar _ d (by simp) hcap
    rw [List.cons_append, List.erase_cons_head] at hstep
    have htail := ih d pend2 (capR - 1) (c + m loc d) (by omega)
    have e2 : (⟨List.getLastD v' d, pend2, capR - 1 - v'.length,
          (c + m loc d) + caminoSum m (d :: v')⟩ : EstadoBB) =
        ⟨List.getLastD (d :: v') loc, pend2, capR - (d :: v').length,
          c + caminoSum m (loc :: d :: v')⟩ := by
      have hlen2 : capR - 1 - v'.length = capR - (d :: v').length := by
        simp only [List.length_cons]
        omega
      rw [List.getLastD_cons, caminoSum_cons2, ← add_assoc, hlen2]
    rw [← e2]
    exact Relation.ReflTransGen.head hstep htail

/-- The leg sum of a route extended by a trip block splits into the old sum,
the depot-to-start leg, and the trip distance. -/
theorem caminoSum_bloque (m : Mat) (dep par v0 : Nat) (resto rt : List Nat)
    (hlast : rt.getLast? = some dep) :
    caminoSum m ((rt ++ par :: (v0 :: resto)) ++ [dep]) =
      caminoSum m rt + (m dep par + distanciaViaje m dep par v0 resto) := by
  obtain ⟨rt0, hrt0⟩ := List.getLast?_eq_some_iff.mp hlast
  have hblo : ((rt ++ par :: (v0 :: resto)) ++ [dep]) =
      (rt0 ++ [dep]) ++ par :: ((v0 :: resto) ++ [dep]) := by
    rw [hrt0]
    simp
  rw [hblo, caminoSum_append_bloque, ← hrt0]
  have h2 : caminoSum m (par :: ((v0 :: resto) ++ [dep])) =
      caminoSum m ((par :: v0 :: resto) ++ [dep]) := rfl
  rw [h2, caminoSum_viaje]

/-- From the greedy trips a complete branch-and-bound plan is assembled: move
to the chosen start point, deliver the trip in order, recharge back at the
depot, and repeat; the accumulated plan cost is exactly the leg sum the route
gains over the starting route. -/
theorem plan_viajes (m : Mat) (dep : Nat) (activos : List Nat) (cap : Nat)
    (hdep0 : m dep dep = 0) :
    ∀ (vs : List (List Nat)) (dt : Qinf) (rt : List Nat) (dtf : Qinf)
      (rtf : List Nat) (c0 : Qinf),
      acumularViajes m dep activos vs dt rt = some (dtf, rtf) →
      (∀ v ∈ vs, v ≠ [] ∧ v.length ≤ cap) →
      dep ∉ vs.flatten →
      rt.getLast? = some dep →
      ∃ t : Qinf,
        AlcanzaBB m dep (dep :: activos) cap ⟨dep, vs.flatten, cap, c0⟩
          ⟨dep, [], cap, c0 + t⟩ ∧
        caminoSum m rtf = caminoSum m rt + t := by
  intro vs
  induction vs with
  | nil =>
    intro dt rt dtf rtf c0 heq _ _ _
    rw [acumularViajes] at heq
    obtain ⟨_, h2⟩ := Prod.mk.injEq _ _ _ _ ▸ (Option.some.injEq _ _ ▸ heq)
    subst h2
    refine ⟨0, ?_, by rw [add_zero]⟩
    have e : (⟨dep, ([] : List (List Nat)).flatten, cap, c0⟩ : EstadoBB) =
        ⟨dep, [], cap, c0 + 0⟩ := by simp
    rw [e]
    exact Relation.ReflTransGen.refl
  | cons v vs' ih =>
    intro dt rt dtf rtf c0 heq hvs hdnm hlast
    cases v with
    | nil => exact absurd rfl (hvs [] (by simp)).1
    | cons v0 resto =>
      rw [acumularViajes] at heq
      set par := (elegirPartida m dep activos v0 resto).1 with hpar
      set men := (elegirPartida m dep activos v0 resto).2 with hmen
      obtain ⟨e1, e2, _⟩ := elegir_spec m dep activos v0 resto
      have emen : men = distanciaViaje m dep par v0 resto := by
        rw [hmen, e2, ← hpar]
      have hd2 : dep ∉ vs'.flatten := by
        intro hmem
        exact hdnm (by rw [List.flatten_cons]; exact List.mem_append_right _ hmem)
      obtain ⟨t', htA, htS⟩ :=
        ih (dt + men) ((rt ++ par :: (v0 :: resto)) ++ [dep]) dtf rtf
          (c0 + (m dep par + men)) heq
          (fun w hw => hvs w (List.mem_cons_of_mem _ hw)) hd2
          (List.getLast?_concat _)
      have hA : AlcanzaBB m dep (dep :: activos) cap
          ⟨dep, (v0 :: resto) ++ vs'.flatten, cap, c0⟩
          ⟨par, (v0 :: resto) ++ vs'.flatten, cap, c0 + m dep par⟩ := by
        by_cases hpd : par = dep
        · have e : (⟨par, (v0 :: resto) ++ vs'.flatten, cap, c0 + m dep par⟩ : EstadoBB) =
              ⟨dep, (v0 :: resto) ++ vs'.flatten, cap, c0⟩ := by
            rw [hpd, hdep0, add_zero]
          rw [e]
          exact Relation.ReflTransGen.refl
        · have hstep : PasoBB m dep (dep :: activos) cap
              ⟨dep, (v0 :: resto) ++ vs'.flatten, cap, c0⟩
              ⟨par, (v0 :: resto) ++ vs'.flatten, cap, c0 + m dep par⟩ :=
            PasoBB.recargar _ par e1 hpd
          exact Relation.ReflTransGen.single hstep
      have hB := entregas_seguidas m dep (dep :: activos) cap (v0 :: resto) par
        vs'.flatten cap (c0 + m dep par) (hvs (v0 :: resto) (by simp)).2
      rw [List.getLastD_cons] at hB
      have hultmem : resto.getLastD v0 ∈ v0 :: resto := getLastD_mem v0 resto
      have hultne : dep ≠ resto.getLastD v0 := by
        intro h
        have hmem : dep ∈ v0 :: resto := by rw [h]; exact hultmem
        exact hdnm (by rw [List.flatten_cons]; exact List.mem_append_left _ hmem)
      have hcosto : ((c0 + m dep par) + caminoSum m (par :: v0 :: resto)) +
          m (resto.getLastD v0) dep = c0 + (m dep par + men) := by
        rw [emen, distanciaViaje, add_assoc, add_assoc]
      have hC : PasoBB m dep (dep :: activos) cap
          ⟨resto.getLastD v0, vs'.flatten, cap - (v0 :: resto).length,
            (c0 + m dep par) + caminoSum m (par :: v0 :: resto)⟩
          ⟨dep, vs'.flatten, cap,
            ((c0 + m dep par) + caminoSum m (par :: v0 :: resto)) +
              m (resto.getLastD v0) dep⟩ :=
        PasoBB.recargar _ dep (by simp) hultne
      rw [hcosto] at hC
      refine ⟨(m dep par + men) + t', ?_, ?_⟩
      · have e3 : (⟨dep, ((v0 :: resto) :: vs').flatten, cap, c0⟩ : EstadoBB) =
            ⟨dep, (v0 :: resto) ++ vs'.flatten, cap, c0⟩ := by
          rw [List.flatten_cons]
        have e4 : (⟨dep, ([] : List Nat), cap, c0 + ((m dep par + men) + t')⟩ : EstadoBB) =
            ⟨dep, [], cap, (c0 + (m dep par + men)) + t'⟩ := by
          rw [← add_assoc]
        rw [e3, e4]
        exact Relation.ReflTransGen.trans
          (Relation.ReflTransGen.trans
            (Relation.ReflTransGen.trans hA hB)
            (Relation.ReflTransGen.single hC))
          htA
      · rw [htS, caminoSum_bloque m dep par v0 resto rt hlast, ← emen, add_assoc]

/-- The concrete matrix `mTri` satisfies the triangle inequality on its
three nodes. -/
theorem mTri_triangulo : ∀ x ∈ [0, 1, 2], ∀ y ∈ [0, 1, 2], ∀ z ∈ [0, 1, 2],
    mTri x z ≤ mTri x y + mTri y z := by
  intro x hx y hy z hz
  simp only [List.mem_cons, List.not_mem_nil, or_false] at hx hy hz
  rcases hx with rfl | rfl | rfl <;> rcases hy with rfl | rfl | rfl <;>
    rcases hz with rfl | rfl | rfl <;> simp [mTri, q_nonneg]

/-- Invariant of the branch-and-bound planner on the triangle instance: the
location stays on the three nodes, and the accumulated cost is bounded below
by the distance from the depot (before the delivery of destination 2) or by
100 plus the distance from destination 2 (after it). -/
theorem mTri_invariante (sf : EstadoBB)
    (h : Relation.ReflTransGen (PasoBB mTri 0 [0, 1] 1) ⟨0, [2], 1, 0⟩ sf) :
    sf.loc ∈ [0, 1, 2] ∧
      (sf.pendientes = [2] ∧ mTri 0 sf.loc ≤ sf.costo ∨
        sf.pendientes = [] ∧ q 100 + mTri 2 sf.loc ≤ sf.costo) := by
  induction h with
  | refl => exact ⟨by simp, Or.inl ⟨rfl, by simp [mTri]⟩⟩
  | @tail b c hab hbc ih =>
    obtain ⟨ihloc, ihd⟩ := ih
    cases hbc with
    | entregar d hd hc =>
      rcases ihd with ⟨hpend, hcle⟩ | ⟨hpend, hcge⟩
      · rw [hpend] at hd
        have hd2 : d = 2 := by simpa using hd
        subst hd2
        have htr := mTri_triangulo 0 (by simp) b.loc ihloc 2 (by simp)
        have h02 : mTri 0 2 = q 100 := by simp [mTri]
        rw [h02] at htr
        refine ⟨by simp, Or.inr ⟨?_, ?_⟩⟩
        · show b.pendientes.erase 2 = []
          rw [hpend]
          simp
        · show q 100 + mTri 2 2 ≤ b.costo + mTri b.loc 2
          have h22 : mTri 2 2 = 0 := by simp [mTri]
          rw [h22, add_zero]
          exact le_trans htr (add_le_add_right hcle _)
      · rw [hpend] at hd
        cases hd
    | recargar p hp hne =>
      have hp3 : p ∈ [0, 1, 2] := by
        rcases (by simpa using hp : p = 0 ∨ p = 1) with rfl | rfl <;> simp
      refine ⟨hp3, ?_⟩
      rcases ihd with ⟨hpend, hcle⟩ | ⟨hpend, hcge⟩
      · refine Or.inl ⟨hpend, ?_⟩
        show mTri 0 p ≤ b.costo + mTri b.loc p
        have htr := mTri_triangulo 0 (by simp) b.loc ihloc p hp3
        exact le_trans htr (add_le_add_right hcle _)
      · refine Or.inr ⟨hpend, ?_⟩
        show q 100 + mTri 2 p ≤ b.costo + mTri b.loc p
        have htr := mTri_triangulo 2 (by simp) b.loc ihloc p hp3
        calc q 100 + mTri 2 p ≤ q 100 + (mTri 2 b.loc + mTri b.loc p) :=
              add_le_add_left htr _
          _ = (q 100 + mTri 2 b.loc) + mTri b.loc p := (add_assoc _ _ _).symm
          _ ≤ b.costo + mTri b.loc p := add_le_add_right hcge _

/-- C4 counterexample: TPO.py implements only the greedy grouping (no
branch-and-bound and no per-call strategy choice), and the claimed inequality
fails against the implemented result: on the triangle instance with hub
subset {1}, the exact branch-and-bound optimum is 200, while the greedy
evaluation of the same hub subset reports distance 110, because the
depot-to-hub leg of each trip is never added to the reported distance. -/
theorem c4_contra :
    EsResultadoBB mTri 0 [0, 1] 1 [2] (q 200) ∧
    evaluarSubconjunto mTri 0 1 (paquetesPorDestino datosTri.paquetes) [1] =
      some (q 110, [0, 1, 2, 0]) ∧
    ¬ (q 200 ≤ q 110) := by
  have hplan : CostoBB mTri 0 [0, 1] 1 [2] (q 200) := by
    refine ⟨⟨2, [], 0, 0 + mTri 0 2⟩, ?_, rfl, ?_⟩
    · exact Relation.ReflTransGen.single
        (PasoBB.entregar ⟨0, [2], 1, 0⟩ 2 (by simp) (by norm_num))
    · show q 200 = (0 + mTri 0 2) + (if (2 : Nat) = 0 then 0 else mTri 2 0)
      simp [mTri]
  refine ⟨⟨hplan, ?_⟩, ?_, ?_⟩
  · intro c2 hc2
    obtain ⟨s, halc, hpend, hcost⟩ := hc2
    have hInv := mTri_invariante s halc
    rcases hInv.2 with ⟨hp2, _⟩ | ⟨_, hcge⟩
    · rw [hpend] at hp2
      simp at hp2
    · have hloc := hInv.1
      simp only [List.mem_cons, List.not_mem_nil, or_false] at hloc
      rcases hloc with h0 | h1 | h2
      · rw [h0] at hcge
        rw [hcost, h0, if_pos rfl, add_zero]
        refine le_trans (le_of_eq ?_) hcge
        simp [mTri]
      · rw [h1] at hcge
        rw [hcost, h1, if_neg (by norm_num)]
        calc q 200 = (q 100 + mTri 2 1) + mTri 1 0 := by simp [mTri]
          _ ≤ s.costo + mTri 1 0 := add_le_add_right hcge _
      · rw [h2] at hcge
        rw [hcost, h2, if_neg (by norm_num)]
        calc q 200 = (q 100 + mTri 2 2) + mTri 2 0 := by simp [mTri]
          _ ≤ s.costo + mTri 2 0 := add_le_add_right hcge _
  · simp [evaluarSubconjunto, acumularViajes, armarViajes, paquetesPorDestino,
      bump, demanda, elegirPartida, distanciaViaje, caminoSum, datosTri, mTri]
  · simp

/-- C4 (corrected): TPO.py implements only the greedy grouping heuristic; for
the branch-and-bound planner modelled from the spec, the dominance inequality
holds against the true leg sum of the greedy route: whenever the greedy
evaluation of a hub subset succeeds, on an instance with zero depot
self-distance, demands that fit the capacity and no package destined to the
depot, the greedy route's leg sum is an achievable plan cost, and the exact
branch-and-bound optimum is at most it. -/
theorem c4_correcto (d : Datos) (m : Mat) (activos : List Nat) (dt : Qinf)
    (rt : List Nat)
    (hdep0 : m d.deposito d.deposito = 0)
    (hdem : ∀ p ∈ paquetesPorDestino d.paquetes, p.2 ≤ d.capacidad)
    (hnodep : d.deposito ∉ (paquetesPorDestino d.paquetes).map Prod.fst)
    (heval : evaluarSubconjunto m d.deposito d.capacidad
        (paquetesPorDestino d.paquetes) activos = some (dt, rt)) :
    CostoBB m d.deposito (d.deposito :: activos) d.capacidad
      ((paquetesPorDestino d.paquetes).map Prod.fst) (caminoSum m rt) ∧
    ∀ c, EsResultadoBB m d.deposito (d.deposito :: activos) d.capacidad
        ((paquetesPorDestino d.paquetes).map Prod.fst) c →
      c ≤ caminoSum m rt := by
  rw [evaluarSubconjunto] at heval
  have hdle : ∀ x ∈ (paquetesPorDestino d.paquetes).map Prod.fst,
      demanda (paquetesPorDestino d.paquetes) x ≤ d.capacidad :=
    fun x _ => demanda_le (paquetesPorDestino d.paquetes) d.capacidad hdem x
  obtain ⟨harm, hflat⟩ := armar_spec (paquetesPorDestino d.paquetes) d.capacidad
    ((paquetesPorDestino d.paquetes).map Prod.fst) hdle
  have hvsz : ∀ v ∈ armarViajes ((paquetesPorDestino d.paquetes).map Prod.fst)
      (paquetesPorDestino d.paquetes) d.capacidad,
      v ≠ [] ∧ v.length ≤ d.capacidad := by
    intro v hv
    obtain ⟨hne, hsum⟩ := harm v hv
    refine ⟨hne, le_trans (longitud_le_suma _ v ?_) hsum⟩
    intro x hx
    have hxds : x ∈ (paquetesPorDestino d.paquetes).map Prod.fst := by
      rw [← hflat]
      exact List.mem_flatten.mpr ⟨v, hv, hx⟩
    exact demanda_pos _ x (ppd_val_pos d.paquetes) hxds
  have hnd2 : d.deposito ∉ (armarViajes ((paquetesPorDestino d.paquetes).map Prod.fst)
      (paquetesPorDestino d.paquetes) d.capacidad).flatten := by
    rw [hflat]
    exact hnodep
  obtain ⟨t, hAlc, hSum⟩ := plan_viajes m d.deposito activos d.capacidad hdep0
    (armarViajes ((paquetesPorDestino d.paquetes).map Prod.fst)
      (paquetesPorDestino d.paquetes) d.capacidad)
    0 [d.deposito] dt rt 0 heval hvsz hnd2 (by simp)
  have hsum2 : caminoSum m rt = t := by
    rw [hSum, caminoSum_single, zero_add]
  have hcb : CostoBB m d.deposito (d.deposito :: activos) d.capacidad
      ((paquetesPorDestino d.paquetes).map Prod.fst) (caminoSum m rt) := by
    refine ⟨⟨d.deposito, [], d.capacidad, 0 + t⟩, ?_, rfl, ?_⟩
    · have e : (⟨d.deposito, (paquetesPorDestino d.paquetes).map Prod.fst,
            d.capacidad, (0 : Qinf)⟩ : EstadoBB) =
          ⟨d.deposito, (armarViajes ((paquetesPorDestino d.paquetes).map Prod.fst)
            (paquetesPorDestino d.paquetes) d.capacidad).flatten, d.capacidad, 0⟩ := by
        rw [hflat]
      rw [e]
      exact hAlc
    · show caminoSum m rt =
        (0 + t) + (if d.deposito = d.deposito then 0 else m d.deposito d.deposito)
      rw [if_pos rfl, add_zero, zero_add, hsum2]
  exact ⟨hcb, fun c hc => hc.2 _ hcb⟩

/-- C4 witness: the corrected theorem on the triangle instance with the empty
hub subset, whose greedy route is [0, 0, 2, 0]. -/
theorem c4_correcto_witness :
    (mTri datosTri.deposito datosTri.deposito = 0 ∧
      (∀ p ∈ paquetesPorDestino datosTri.paquetes, p.2 ≤ datosTri.capacidad) ∧
      datosTri.deposito ∉ (paquetesPorDestino datosTri.paquetes).map Prod.fst ∧
      evaluarSubconjunto mTri datosTri.deposito datosTri.capacidad
        (paquetesPorDestino datosTri.paquetes) [] = some (q 200, [0, 0, 2, 0])) ∧
    CostoBB mTri datosTri.deposito (datosTri.deposito :: []) datosTri.capacidad
      ((paquetesPorDestino datosTri.paquetes).map Prod.fst)
      (caminoSum mTri [0, 0, 2, 0]) := by
  have h1 : mTri datosTri.deposito datosTri.deposito = 0 := by simp [mTri, datosTri]
  have h2 : ∀ p ∈ paquetesPorDestino datosTri.paquetes, p.2 ≤ datosTri.capacidad := by
    decide
  have h3 : datosTri.deposito ∉ (paquetesPorDestino datosTri.paquetes).map Prod.fst := by
    decide
  have h4 : evaluarSubconjunto mTri datosTri.deposito datosTri.capacidad
      (paquetesPorDestino datosTri.paquetes) [] = some (q 200, [0, 0, 2, 0]) := by
    simp [evaluarSubconjunto, acumularViajes, armarViajes, paquetesPorDestino,
      bump, demanda, elegirPartida, distanciaViaje, caminoSum, datosTri, mTri]
  exact ⟨⟨h1, h2, h3, h4⟩,
    (c4_correcto datosTri mTri [] (q 200) [0, 0, 2, 0] h1 h2 h3 h4).1⟩
